import Mathlib

/-!
Verification development for the `tilo` terminal log viewer.

The Go sources are shallowly embedded:
* strings are modelled as `List Char`; for the colorization / ANSI layer every
  `Char` stands for one byte (all concrete inputs are ASCII, where bytes and
  runes coincide), while for the viewer layer every `Char` stands for one rune,
  matching the Go code which addresses viewer columns by rune index;
* Go `int` values (cursor, columns, match index) are modelled as `Int`,
  mirroring the source's transient negative values before clamping;
* the regular-expression engine is the Go standard library (external to this
  repository); a compiled regex is modelled by its `FindAllStringIndex`
  behaviour, i.e. a function returning the list of non-overlapping
  leftmost-first match ranges.  The fixed default patterns are translated
  one by one into executable matchers below.
-/

namespace Tilo

/-- Strings are lists of chars (bytes in the color layer, runes in the viewer). -/
abbrev Str := List Char

/-- Conversion helper for writing concrete `Str` values. -/
def str (s : String) : Str := s.toList

/-- The ESC byte 0x1b. -/
def escChar : Char := Char.ofNat 27

/-- The ANSI reset sequence "\x1b[0m" (constant `reset` in the source). -/
def resetSeq : Str := escChar :: str "[0m"

/-! ## ANSI-aware helpers from the viewer (`stripANSI`, `truncateANSI`) -/

/-- Loop body of Go `stripANSI`: drops escape sequences (from an ESC byte up to
and including the next `m` byte), keeping all other bytes. -/
def stripGo : Str → Bool → Str
  | [], _ => []
  | c :: rest, inEscape =>
    if c = escChar then stripGo rest true
    else if inEscape then
      if c = 'm' then stripGo rest false else stripGo rest true
    else c :: stripGo rest false

/-- Go `stripANSI`. -/
def stripANSI (s : Str) : Str := stripGo s false

/-- Escape-scanner state after reading `s` starting in state `e`
(`true` = inside an escape sequence).  Both `stripANSI` and `truncateANSI`
advance this same state. -/
def escStateFrom (e : Bool) : Str → Bool
  | [] => e
  | c :: rest =>
    escStateFrom (if c = escChar then true else if e && c = 'm' then false else e) rest

/-- Loop body of Go `truncateANSI`: copies bytes, counting only bytes outside
escape sequences, and stops (Go `break`) at the first visible byte once
`count` reaches `width`. -/
def truncGo : Str → Nat → Nat → Bool → Str
  | [], _, _, _ => []
  | c :: rest, width, count, inEscape =>
    let inEscape := if c = escChar then true else inEscape
    if !inEscape then
      if width ≤ count then []
      else c :: truncGo rest width (count + 1) false
    else
      c :: truncGo rest width count (if c = 'm' then false else true)

/-- Go `truncateANSI`: truncate `s` to `width` visible bytes, keeping escape
sequences intact and appending the reset sequence. -/
def truncateANSI (s : Str) (width : Int) : Str :=
  if width ≤ 0 then []
  else if (stripANSI s).length ≤ width then s
  else truncGo s width.toNat 0 false ++ resetSeq

/-! ### Lemmas about the escape scanner -/

theorem esc_ne_m : escChar ≠ 'm' := by decide

theorem m_ne_esc : ('m' : Char) ≠ escChar := by decide

theorem stripGo_append (a b : Str) (e : Bool) :
    stripGo (a ++ b) e = stripGo a e ++ stripGo b (escStateFrom e a) := by
  induction a generalizing e with
  | nil => simp [stripGo, escStateFrom]
  | cons c rest ih =>
    by_cases hc : c = escChar
    · simp [stripGo, escStateFrom, hc, ih]
    · by_cases he : e
      · by_cases hm : c = 'm'
        · subst hm
          have h1 : stripGo ('m' :: (rest ++ b)) e = stripGo (rest ++ b) false := by
            simp [stripGo, hc, he]
          have h2 : stripGo ('m' :: rest) e = stripGo rest false := by
            simp [stripGo, hc, he]
          have h3 : escStateFrom e ('m' :: rest) = escStateFrom false rest := by
            simp [escStateFrom, hc, he]
          rw [List.cons_append, h1, h2, h3]
          exact ih false
        · simp [stripGo, escStateFrom, hc, he, hm, ih]
      · simp [stripGo, escStateFrom, hc, he, ih]

theorem escStateFrom_append (a b : Str) (e : Bool) :
    escStateFrom e (a ++ b) = escStateFrom (escStateFrom e a) b := by
  induction a generalizing e with
  | nil => simp [escStateFrom]
  | cons c rest ih => simp [escStateFrom, ih]

/-- Core property of the `truncateANSI` loop: as long as the visible length of
the remaining input exceeds the remaining quota, the loop emits a prefix of the
input that ends outside any escape sequence and contains exactly the quota of
visible bytes. -/
theorem truncGo_spec (s : Str) : ∀ (width count : Nat) (e : Bool),
    count ≤ width → width < count + (stripGo s e).length →
    ∃ n, truncGo s width count e = s.take n ∧
      escStateFrom e (s.take n) = false ∧
      (stripGo (s.take n) e).length = width - count := by
  induction s with
  | nil =>
    intro width count e hle hlt
    simp [stripGo] at hlt
    omega
  | cons c rest ih =>
    intro width count e hle hlt
    by_cases hc : c = escChar
    · -- the byte opens (or continues) an escape sequence; it is copied uncounted
      have hstrip : stripGo (c :: rest) e = stripGo rest true := by simp [stripGo, hc]
      have hm : c ≠ 'm' := by subst hc; decide
      obtain ⟨n, h1, h2, h3⟩ := ih width count true hle (by rw [hstrip] at hlt; exact hlt)
      refine ⟨n + 1, ?_, ?_, ?_⟩
      · simp [truncGo, hc, hm, h1, esc_ne_m]
      · simpa [escStateFrom, hc] using h2
      · simpa [stripGo, hc] using h3
    · by_cases he : e
      · -- inside an escape sequence: the byte is copied uncounted
        by_cases hm : c = 'm'
        · have hstrip : stripGo (c :: rest) e = stripGo rest false := by
            simp [stripGo, hc, he, hm, m_ne_esc]
          obtain ⟨n, h1, h2, h3⟩ := ih width count false hle (by rw [hstrip] at hlt; exact hlt)
          refine ⟨n + 1, ?_, ?_, ?_⟩
          · simp [truncGo, hc, he, hm, h1, m_ne_esc]
          · simpa [escStateFrom, hc, he, hm, m_ne_esc] using h2
          · simpa [stripGo, hc, he, hm, m_ne_esc] using h3
        · have hstrip : stripGo (c :: rest) e = stripGo rest true := by
            simp [stripGo, hc, he, hm]
          obtain ⟨n, h1, h2, h3⟩ := ih width count true hle (by rw [hstrip] at hlt; exact hlt)
          refine ⟨n + 1, ?_, ?_, ?_⟩
          · simp [truncGo, hc, he, hm, h1]
          · simpa [escStateFrom, hc, he, hm] using h2
          · simpa [stripGo, hc, he, hm] using h3
      · -- a visible byte: counted, or the break point
        have hstrip : stripGo (c :: rest) e = c :: stripGo rest false := by
          simp [stripGo, hc, he]
        rcases Nat.lt_or_ge count width with hcw | hcw
        · obtain ⟨n, h1, h2, h3⟩ := ih width (count + 1) false hcw (by
            rw [hstrip] at hlt; simp at hlt; omega)
          refine ⟨n + 1, ?_, ?_, ?_⟩
          · simp only [truncGo, if_neg hc, he]
            simpa [Nat.not_le.mpr hcw] using h1
          · simpa [escStateFrom, hc, he] using h2
          · have hcons : stripGo (c :: rest.take n) e = c :: stripGo (rest.take n) false := by
              simp [stripGo, hc, he]
            rw [List.take_succ_cons, hcons, List.length_cons, h3]
            omega
        · have hcw' : count = width := le_antisymm hle hcw
          refine ⟨0, ?_, ?_, ?_⟩
          · subst hcw'
            simp [truncGo, hc, he]
          · have hef : e = false := by cases e <;> simp_all
            simp [escStateFrom, hef]
          · simp [stripGo]
            omega

theorem stripANSI_resetSeq_from_false : stripGo resetSeq false = [] := by decide

/-- C9: for every width > 0 and every byte string whose visible
(escape-stripped) length exceeds the width, `truncateANSI` returns a prefix of
the input (so embedded escape sequences are kept intact and never cut in the
middle — the prefix ends outside any escape sequence) followed by the style
reset code "\x1b[0m", and the visible (escape-stripped) length of the output
equals exactly the width. -/
theorem truncateANSI_exact_width (s : Str) (width : Int)
    (hw : 0 < width) (hlen : width < ((stripANSI s).length : Int)) :
    ∃ n, truncateANSI s width = s.take n ++ resetSeq ∧
      escStateFrom false (s.take n) = false ∧
      ((stripANSI (truncateANSI s width)).length : Int) = width := by
  have hw' : ¬ width ≤ 0 := by omega
  have hlen' : ¬ ((stripANSI s).length : Int) ≤ width := by omega
  have hlen'' : ¬ (stripANSI s).length ≤ width := by exact_mod_cast hlen'
  have heq : truncateANSI s width = truncGo s width.toNat 0 false ++ resetSeq := by
    simp [truncateANSI, hw', hlen'']
  have htn : width.toNat < 0 + (stripGo s false).length := by
    have h1 : (width.toNat : Int) = width := Int.toNat_of_nonneg (by omega)
    have h2 : stripANSI s = stripGo s false := rfl
    rw [h2] at hlen
    simp only [Nat.zero_add]
    omega
  obtain ⟨n, h1, h2, h3⟩ := truncGo_spec s width.toNat 0 false (Nat.zero_le _) htn
  refine ⟨n, by rw [heq, h1], h2, ?_⟩
  rw [heq, h1]
  unfold stripANSI
  rw [stripGo_append, h2, stripANSI_resetSeq_from_false, List.append_nil, h3]
  omega

/-- Witness for `truncateANSI_exact_width` at the concrete styled input
"ab\x1b[31mcd" and width 3. -/
theorem truncateANSI_exact_width_witness :
    0 < (3 : Int) ∧
      (3 : Int) < ((stripANSI (str "ab" ++ escChar :: str "[31mcd")).length : Int) ∧
      (∃ n, truncateANSI (str "ab" ++ escChar :: str "[31mcd") 3 =
          (str "ab" ++ escChar :: str "[31mcd").take n ++ resetSeq ∧
        escStateFrom false ((str "ab" ++ escChar :: str "[31mcd").take n) = false ∧
        ((stripANSI (truncateANSI (str "ab" ++ escChar :: str "[31mcd") 3)).length : Int) = 3) :=
  ⟨by decide, by decide,
    truncateANSI_exact_width (str "ab" ++ escChar :: str "[31mcd") 3 (by decide) (by decide)⟩

/-! ## Colorization rule engine (internal/color) -/

/-- ASCII lower-casing, modelling Go `strings.ToLower` on the ASCII range
(all strings in this development are ASCII). -/
def toLowerChar (c : Char) : Char :=
  if 'A' ≤ c ∧ c ≤ 'Z' then Char.ofNat (c.toNat + 32) else c

/-- Go `strings.ToLower` (ASCII model). -/
def toLowerStr (s : Str) : Str := s.map toLowerChar

/-- The `ansiColors` map from the source. -/
def ansiColors (name : Str) : Option Str :=
  if name = str "black" then some (str "30")
  else if name = str "red" then some (str "31")
  else if name = str "green" then some (str "32")
  else if name = str "yellow" then some (str "33")
  else if name = str "blue" then some (str "34")
  else if name = str "magenta" then some (str "35")
  else if name = str "cyan" then some (str "36")
  else if name = str "white" then some (str "37")
  else if name = str "gray" then some (str "90")
  else none

/-- The `ansiStyles` map from the source. -/
def ansiStyles (name : Str) : Option Str :=
  if name = str "bold" then some (str "1")
  else if name = str "dim" then some (str "2")
  else if name = str "underline" then some (str "4")
  else none

/-- Go `colorCode`: style code then color code, joined by ";"; unknown names
contribute nothing. -/
def colorCode (colorName style : Str) : Str :=
  let colorName := toLowerStr colorName
  let style := toLowerStr style
  let parts : List Str :=
    (if style ≠ [] then
      (match ansiStyles style with | some s => [s] | none => []) else []) ++
    (if colorName ≠ [] then
      (match ansiColors colorName with | some c => [c] | none => []) else [])
  List.intercalate (str ";") parts

/-- Go `Wrap`: wrap `text` in a single combined escape sequence terminated by a
reset; unknown color/style names degrade to the unstyled text. -/
def wrap (text colorName style : Str) : Str :=
  let code := colorCode colorName style
  if code = [] then text
  else escChar :: '[' :: (code ++ 'm' :: (text ++ resetSeq))

/-- A highlight rule.  The compiled regular expression (Go `*regexp.Regexp`,
an external collaborator) is modelled by its `FindAllStringIndex` behaviour:
the list of non-overlapping leftmost-first match ranges of the pattern on a
line; `none` models a nil regex. -/
structure Rule where
  name : Str
  regex : Option (Str → List (Nat × Nat))
  color : Str
  style : Str
  enabled : Bool

/-- A resolved span (local `span` struct in Go `ApplyRules`); `stop` is the
source's `end` field (a Lean keyword). -/
structure Span where
  start : Nat
  stop : Nat
  color : Str
  style : Str
deriving DecidableEq

/-- The `for i := start; i < end; ... if occupied[i]` scan of Go `ApplyRules`,
counted form: is any of the `n` bytes starting at `s` occupied? -/
def anyOccupied (occ : List Bool) (s : Nat) : Nat → Bool
  | 0 => false
  | n + 1 => anyOccupied occ s n || occ.getD (s + n) false

/-- The claiming loop of Go `ApplyRules`: mark the `n` bytes starting at `s`. -/
def setRange (occ : List Bool) (s : Nat) : Nat → List Bool
  | 0 => occ
  | n + 1 => (setRange occ s n).set (s + n) true

/-- The inner candidate loop of Go `ApplyRules` for one rule: drop empty
candidates, reject candidates touching an occupied byte, otherwise claim the
range and append the span. -/
def processIndices (color style : Str) :
    List (Nat × Nat) → List Bool → List Span → List Bool × List Span
  | [], occ, spans => (occ, spans)
  | (s, e) :: rest, occ, spans =>
    if e ≤ s then processIndices color style rest occ spans
    else if anyOccupied occ s (e - s) then processIndices color style rest occ spans
    else processIndices color style rest (setRange occ s (e - s))
      (spans ++ [⟨s, e, color, style⟩])

/-- The outer rule loop of Go `ApplyRules`; disabled or nil-regex rules are
skipped. -/
def processRules (line : Str) :
    List Rule → List Bool → List Span → List Bool × List Span
  | [], occ, spans => (occ, spans)
  | r :: rest, occ, spans =>
    if r.enabled then
      match r.regex with
      | some findAll =>
        let p := processIndices r.color r.style (findAll line) occ spans
        processRules line rest p.1 p.2
      | none => processRules line rest occ spans
    else processRules line rest occ spans

/-- Go slice `line[a:b]`. -/
def sliceGo (l : Str) (a b : Nat) : Str := (l.take b).drop a

/-- The comparator of the `sort.Slice` call in Go `ApplyRules`, as a `≤`:
ascending start, ties by ascending end. -/
def spanLe (a b : Span) : Bool :=
  a.start < b.start || (a.start = b.start && a.stop ≤ b.stop)

/-- The span order as a decidable relation. -/
def SpanOrder (a b : Span) : Prop := spanLe a b = true

instance : DecidableRel SpanOrder := fun a b => by
  unfold SpanOrder
  infer_instance

/-- Sorting the accepted spans (Go `sort.Slice` with the comparator above;
accepted spans have pairwise distinct starts — equal starts would overlap —
so any sorting algorithm produces the same list; insertion sort is used for
an executable model). -/
def sortSpans (spans : List Span) : List Span := List.insertionSort SpanOrder spans

/-- The stitching loop of Go `ApplyRules`: untouched text verbatim, matched
ranges wrapped, spans whose start lies before the current position skipped. -/
def stitch (line : Str) : List Span → Nat → Str
  | [], pos => line.drop pos
  | sp :: rest, pos =>
    if sp.start < pos then stitch line rest pos
    else sliceGo line pos sp.start ++
      (wrap (sliceGo line sp.start sp.stop) sp.color sp.style ++ stitch line rest sp.stop)

/-- Go `ApplyRules` (the first-claim-wins engine of internal/color). -/
def applyRules (line : Str) (rules : List Rule) : Str :=
  if rules.isEmpty || line.isEmpty then line
  else
    let spans := (processRules line rules (List.replicate line.length false) []).2
    if spans.isEmpty then line
    else stitch line (sortSpans spans) 0

/-! ### Executable matchers for the default rule patterns

Go's regexp engine is external to this repository; each default pattern is
translated into an executable matcher with `FindAllStringIndex` semantics
(leftmost-first matches, scanning resumes at the end of each match).  `\b` and
`\w` follow Go regexp's ASCII definitions, `\s` is `[\t\n\f\r ]`. -/

/-- Byte at index `i`, NUL when out of range (NUL matches no pattern byte). -/
def chAt (s : Str) (i : Nat) : Char := s.getD i (Char.ofNat 0)

/-- Go regexp `\w`: `[0-9A-Za-z_]`. -/
def isRegexWordByte (c : Char) : Bool := c.isAlpha || c.isDigit || c = '_'

/-- Is the byte at `i` a word byte (out of range counts as non-word)? -/
def wordAt (s : Str) (i : Nat) : Bool := i < s.length && isRegexWordByte (chAt s i)

/-- Go regexp `\b` at position `i` (between bytes `i-1` and `i`). -/
def hasBoundary (s : Str) (i : Nat) : Bool :=
  match i with
  | 0 => wordAt s 0
  | j + 1 => wordAt s j != wordAt s (j + 1)

/-- Length of the maximal run of bytes satisfying `p`. -/
def runLenAux (p : Char → Bool) : List Char → Nat
  | [] => 0
  | c :: rest => if p c then runLenAux p rest + 1 else 0

/-- Length of the maximal run of bytes satisfying `p` starting at index `i`. -/
def runLen (p : Char → Bool) (s : Str) (i : Nat) : Nat := runLenAux p (s.drop i)

/-- Go regexp `[0-9a-fA-F]`. -/
def isHexByte (c : Char) : Bool :=
  c.isDigit || ('a' ≤ c && c ≤ 'f') || ('A' ≤ c && c ≤ 'F')

/-- Go regexp `\s`: `[\t\n\f\r ]`. -/
def isRegexSpace (c : Char) : Bool :=
  c = '\t' || c = '\n' || c = Char.ofNat 12 || c = '\r' || c = ' '

def digitRun (s : Str) (i : Nat) : Nat := runLen Char.isDigit s i

def hexRun (s : Str) (i : Nat) : Nat := runLen isHexByte s i

def spaceRun (s : Str) (i : Nat) : Nat := runLen isRegexSpace s i

/-- Exactly `n` digits at positions `i..i+n-1`? (`\d{n}` — further digits may
follow; the pattern continues after them.) -/
def digitsAt (s : Str) (i n : Nat) : Bool :=
  (List.range n).all (fun k => i + k < s.length && (chAt s (i + k)).isDigit)

/-- Does the literal `p` occur at index `i`? -/
def hasPrefixAt (s : Str) (i : Nat) (p : Str) : Bool := p.isPrefixOf (s.drop i)

/-- `FindAllStringIndex` driver: scan left to right, take the leftmost match,
resume at its end (all matchers below only produce non-empty matches, for
which this is exactly Go's behaviour). -/
def scanAllGo (matchAt : Str → Nat → Option Nat) (s : Str) (i fuel : Nat) :
    List (Nat × Nat) :=
  match fuel with
  | 0 => []
  | fuel + 1 =>
    if s.length < i then []
    else
      match matchAt s i with
      | some e => if i < e then (i, e) :: scanAllGo matchAt s e fuel
                  else scanAllGo matchAt s (i + 1) fuel
      | none => scanAllGo matchAt s (i + 1) fuel

/-- All matches of `matchAt` on `s`, leftmost-first and non-overlapping. -/
def scanAll (matchAt : Str → Nat → Option Nat) (s : Str) : List (Nat × Nat) :=
  scanAllGo matchAt s 0 (s.length + 1)

/-- ISO branch of the timestamp pattern:
`\d{4}-\d{2}-\d{2}[T ]\d{2}:\d{2}:\d{2}(?:\.\d+)?(?:Z|[+-]\d{2}:\d{2})?\b`
(the leading `\b` is checked by the caller).  The optional fraction and zone
are greedy; on a failed trailing `\b` the engine backtracks to shorter
options, which is what the candidate-end list encodes. -/
def tsIsoAt (s : Str) (i : Nat) : Option Nat :=
  if digitsAt s i 4 && chAt s (i + 4) = '-' && digitsAt s (i + 5) 2 &&
      chAt s (i + 7) = '-' && digitsAt s (i + 8) 2 &&
      (chAt s (i + 10) = 'T' || chAt s (i + 10) = ' ') &&
      digitsAt s (i + 11) 2 && chAt s (i + 13) = ':' && digitsAt s (i + 14) 2 &&
      chAt s (i + 16) = ':' && digitsAt s (i + 17) 2 then
    let e0 := i + 19
    let fracEnd : Option Nat :=
      if chAt s e0 = '.' && 0 < digitRun s (e0 + 1) then
        some (e0 + 1 + digitRun s (e0 + 1))
      else none
    let tryZone : Nat → Option Nat := fun f =>
      if chAt s f = 'Z' then some (f + 1)
      else if (chAt s f = '+' || chAt s f = '-') && digitsAt s (f + 1) 2 &&
          chAt s (f + 3) = ':' && digitsAt s (f + 4) 2 then some (f + 6)
      else none
    let ends : List Nat :=
      (match fracEnd with
       | some f => (tryZone f).toList ++ [f]
       | none => []) ++ (tryZone e0).toList ++ [e0]
    ends.find? (fun e => hasBoundary s e)
  else none

/-- The month names of the syslog branch (case-sensitive in the pattern). -/
def monthNames : List Str :=
  [str "Jan", str "Feb", str "Mar", str "Apr", str "May", str "Jun",
   str "Jul", str "Aug", str "Sep", str "Oct", str "Nov", str "Dec"]

/-- Syslog branch of the timestamp pattern:
`(?:Jan|...|Dec)\s+\d{1,2}\s+\d{2}:\d{2}:\d{2}\b` (leading `\b` checked by the
caller).  `\s+` runs are maximal (shrinking them never helps: the next
required byte class is disjoint), `\d{1,2}` is greedy with backtracking. -/
def tsMonthAt (s : Str) (i : Nat) : Option Nat :=
  if (monthNames.any (fun m => hasPrefixAt s i m)) then
    let p := i + 3
    let w1 := spaceRun s p
    if w1 = 0 then none
    else
      let q := p + w1
      let d := digitRun s q
      let tryDay : Nat → Option Nat := fun k =>
        if k ≤ d then
          let r := q + k
          let w2 := spaceRun s r
          if w2 = 0 then none
          else
            let t := r + w2
            if digitsAt s t 2 && chAt s (t + 2) = ':' && digitsAt s (t + 3) 2 &&
                chAt s (t + 5) = ':' && digitsAt s (t + 6) 2 &&
                hasBoundary s (t + 8) then
              some (t + 8)
            else none
        else none
      match tryDay 2 with
      | some e => some e
      | none => tryDay 1
  else none

/-- Matcher for the `timestamp` rule (alternation: ISO branch first). -/
def timestampMatchAt (s : Str) (i : Nat) : Option Nat :=
  if hasBoundary s i then
    match tsIsoAt s i with
    | some e => some e
    | none => tsMonthAt s i
  else none

/-- The negated class of the `url` and `path` patterns:
`[^\s\)\]\}\>\,\;\:]`. -/
def isUrlByte (c : Char) : Bool :=
  !(isRegexSpace c || c = ')' || c = ']' || c = Char.ofNat 125 || c = '>' ||
    c = ',' || c = ';' || c = ':')

def urlRun (s : Str) (i : Nat) : Nat := runLen isUrlByte s i

/-- Matcher for the `url` rule: `\bhttps?://[^\s\)\]\}\>\,\;\:]+`. -/
def urlMatchAt (s : Str) (i : Nat) : Option Nat :=
  if hasBoundary s i then
    let go : Nat → Option Nat := fun p =>
      let r := urlRun s p
      if r = 0 then none else some (p + r)
    if hasPrefixAt s i (str "https://") then go (i + 8)
    else if hasPrefixAt s i (str "http://") then go (i + 7)
    else none
  else none

/-- Matcher for the `ipv4` rule: `\b(?:\d{1,3}\.){3}\d{1,3}\b`.  Each octet is
a maximal digit run of length 1–3 (a longer run can never be completed: the
following byte would be a digit where `.` or a boundary is required). -/
def ipv4MatchAt (s : Str) (i : Nat) : Option Nat :=
  if hasBoundary s i then
    let octet : Nat → Option Nat := fun p =>
      let r := digitRun s p
      if 1 ≤ r && r ≤ 3 then some (p + r) else none
    match octet i with
    | none => none
    | some p1 =>
      if chAt s p1 = '.' then
        match octet (p1 + 1) with
        | none => none
        | some p2 =>
          if chAt s p2 = '.' then
            match octet (p2 + 1) with
            | none => none
            | some p3 =>
              if chAt s p3 = '.' then
                match octet (p3 + 1) with
                | none => none
                | some p4 => if hasBoundary s p4 then some p4 else none
              else none
          else none
      else none
  else none

/-- One group iteration `[0-9a-fA-F]{0,4}:` of the ipv6 pattern: a maximal hex
run of length ≤ 4 followed by `:` (a longer run cannot be completed — the
byte after any shorter prefix is a hex byte, not `:`). -/
def ipv6Group (s : Str) (p : Nat) : Option Nat :=
  let h := hexRun s p
  if h ≤ 4 && chAt s (p + h) = ':' then some (p + h + 1) else none

/-- End positions after 1, 2, ... group iterations (greedy, at most 7). -/
def ipv6Groups (s : Str) (p : Nat) : Nat → List Nat
  | 0 => []
  | n + 1 =>
    match ipv6Group s p with
    | some p2 => p2 :: ipv6Groups s p2 n
    | none => []

/-- Final `[0-9a-fA-F]{0,4}\b` of the ipv6 pattern at `p`: try greedily longer
hex prefixes first, each followed by a word boundary. -/
def ipv6Final (s : Str) (p : Nat) : Option Nat :=
  let h := min (hexRun s p) 4
  ((List.range (h + 1)).reverse.map (fun k => p + k)).find? (fun e => hasBoundary s e)

/-- Matcher for the `ipv6` rule: `\b(?:[0-9a-fA-F]{0,4}:){2,7}[0-9a-fA-F]{0,4}\b`.
The repetition count is greedy (7 down to 2). -/
def ipv6MatchAt (s : Str) (i : Nat) : Option Nat :=
  if hasBoundary s i then
    let ends := ipv6Groups s i 7
    ((ends.drop 1).reverse.map (fun p => ipv6Final s p)).foldl
      (fun acc e => match acc with | some r => some r | none => e) none
  else none

/-- Matcher for the `mac` rule: `\b(?:[0-9A-Fa-f]{2}:){5}[0-9A-Fa-f]{2}\b`. -/
def macMatchAt (s : Str) (i : Nat) : Option Nat :=
  if hasBoundary s i then
    let pair : Nat → Bool := fun p =>
      p + 1 < s.length && isHexByte (chAt s p) && isHexByte (chAt s (p + 1))
    let group : Nat → Option Nat := fun p =>
      if pair p && chAt s (p + 2) = ':' then some (p + 3) else none
    match group i with
    | none => none
    | some p1 =>
      match group p1 with
      | none => none
      | some p2 =>
        match group p2 with
        | none => none
        | some p3 =>
          match group p3 with
          | none => none
          | some p4 =>
            match group p4 with
            | none => none
            | some p5 =>
              if pair p5 && hasBoundary s (p5 + 2) then some (p5 + 2) else none
  else none

/-- Matcher for the `port` rule: `:\d{2,5}\b`.  The digit count is greedy
(5 down to 2), each candidate followed by a word boundary. -/
def portMatchAt (s : Str) (i : Nat) : Option Nat :=
  if i < s.length && chAt s i = ':' then
    let r := digitRun s (i + 1)
    let ks := (List.range (min r 5 + 1)).reverse.filter (fun k => 2 ≤ k)
    match ks.find? (fun k => hasBoundary s (i + 1 + k)) with
    | some k => some (i + 1 + k)
    | none => none
  else none

/-- Matcher for the `path` rule: `\B/(?:[^\s\)\]\}\>\,\;\:]+)`. -/
def pathMatchAt (s : Str) (i : Nat) : Option Nat :=
  if !hasBoundary s i && i < s.length && chAt s i = '/' then
    let r := urlRun s (i + 1)
    if r = 0 then none else some (i + 1 + r)
  else none

/-- Matcher for a case-insensitive word alternation `(?i)\b(w1|...|wn)\b`:
such a pattern matches exactly the maximal word runs whose lower-cased text
equals one of the listed words (a match must start at a boundary, i.e. at a
run start, and any listed word that is a proper prefix of the run fails the
trailing `\b`, so the whole run must be listed). -/
def wordListMatchAt (words : List Str) (s : Str) (i : Nat) : Option Nat :=
  if wordAt s i && !(match i with | 0 => false | j + 1 => wordAt s j) then
    let n := runLen isRegexWordByte s i
    if words.contains (toLowerStr (sliceGo s i (i + n))) then some (i + n) else none
  else none

/-- Word list of the `fail` rule. -/
def failWords : List Str :=
  [str "fail", str "failed", str "failure", str "error", str "err", str "fatal",
   str "panic", str "crashed", str "crash", str "abort", str "aborted",
   str "timeout", str "timedout", str "refused", str "reject", str "denied",
   str "unreachable", str "unavailable", str "corrupted", str "invalid"]

/-- Word list of the `success` rule. -/
def successWords : List Str :=
  [str "ok", str "okay", str "success", str "successful", str "successfully",
   str "succeeded", str "complete", str "completed", str "done", str "ready",
   str "healthy", str "passed", str "pass", str "connected", str "accepted",
   str "resolved"]

/-- Word list of the `keyword` rule. -/
def keywordWords : List Str :=
  [str "kube", str "pod", str "node", str "container", str "nginx", str "envoy",
   str "http", str "grpc", str "tcp", str "udp", str "timeout", str "retry",
   str "panic", str "crash"]

/-- Go `BuildDefaultRules`: the fixed ordered list of built-in rules. -/
def buildDefaultRules : List Rule :=
  [⟨str "timestamp", some (scanAll timestampMatchAt), str "cyan", [], true⟩,
   ⟨str "url", some (scanAll urlMatchAt), str "blue", [], true⟩,
   ⟨str "ipv4", some (scanAll ipv4MatchAt), str "yellow", [], true⟩,
   ⟨str "ipv6", some (scanAll ipv6MatchAt), str "yellow", [], true⟩,
   ⟨str "mac", some (scanAll macMatchAt), str "yellow", [], true⟩,
   ⟨str "port", some (scanAll portMatchAt), str "magenta", [], true⟩,
   ⟨str "path", some (scanAll pathMatchAt), str "green", [], true⟩,
   ⟨str "level_error",
     some (scanAll (wordListMatchAt [str "error", str "fatal"])),
     str "red", str "bold", true⟩,
   ⟨str "level_warn",
     some (scanAll (wordListMatchAt [str "warn", str "warning"])),
     str "yellow", str "bold", true⟩,
   ⟨str "level_info", some (scanAll (wordListMatchAt [str "info"])),
     str "blue", str "bold", true⟩,
   ⟨str "level_debug", some (scanAll (wordListMatchAt [str "debug"])),
     str "magenta", str "bold", true⟩,
   ⟨str "level_trace", some (scanAll (wordListMatchAt [str "trace"])),
     str "gray", str "bold", true⟩,
   ⟨str "fail", some (scanAll (wordListMatchAt failWords)),
     str "red", str "bold", true⟩,
   ⟨str "success", some (scanAll (wordListMatchAt successWords)),
     str "green", str "bold", true⟩,
   ⟨str "keyword", some (scanAll (wordListMatchAt keywordWords)),
     str "magenta", [], true⟩]

/-! ### BuildRules (rule assembly with overrides, disables and custom rules) -/

/-- Substring test (Go `strings.Contains` / `strings.Index` ≥ 0). -/
def containsStr (hay needle : Str) : Bool :=
  needle.isPrefixOf hay ||
    (match hay with
     | [] => false
     | _ :: t => containsStr t needle)

/-- One character of Go `fmt`'s `%q` quoting (`strconv.Quote`), ASCII model:
quote and backslash are backslash-escaped, printable bytes kept, common
control bytes use their mnemonic escapes. -/
def quoteChar (c : Char) : Str :=
  if c = '"' then ['\\', '"']
  else if c = '\\' then ['\\', '\\']
  else if c = '\n' then str "\\n"
  else if c = '\t' then str "\\t"
  else if c = '\r' then str "\\r"
  else if 0x20 ≤ c.toNat ∧ c.toNat ≤ 0x7E then [c]
  else str "\\x??"

/-- Go `fmt` `%q` of a string (ASCII model of `strconv.Quote`). -/
def goQuote (s : Str) : Str := '"' :: (s.map quoteChar).flatten ++ ['"']

/-- A custom rule from the configuration. -/
structure CustomRule where
  pattern : Str
  color : Str
  style : Str

/-- The type of the external Go `regexp.Compile`: either an error message or a
compiled regex (modelled by its `FindAllStringIndex` behaviour). -/
abbrev RegexCompiler := Str → Except Str (Str → List (Nat × Nat))

/-- Go `CustomRule.toRule`: compile the pattern; a failure is wrapped as
`invalid custom rule regex %q: %w`. -/
def toRuleGo (compile : RegexCompiler) (r : CustomRule) : Except Str Rule :=
  match compile r.pattern with
  | .error e =>
    .error (str "invalid custom rule regex " ++ goQuote r.pattern ++ str ": " ++ e)
  | .ok re => .ok ⟨str "custom", some re, r.color, r.style, true⟩

/-- The custom-rule loop of Go `BuildRules`: compile in order, abort on the
first failure. -/
def compileCustoms (compile : RegexCompiler) : List CustomRule → Except Str (List Rule)
  | [] => .ok []
  | c :: rest =>
    match toRuleGo compile c with
    | .error e => .error e
    | .ok r =>
      match compileCustoms compile rest with
      | .error e => .error e
      | .ok rs => .ok (r :: rs)

/-- Association-list lookup modelling the Go `overrides` map (keys unique). -/
def lookupAssoc (l : List (Str × Str)) (k : Str) : Option Str :=
  (l.find? (fun p => p.1 = k)).map (fun p => p.2)

/-- The per-default-rule body of Go `BuildRules`: disable by case-insensitive
name match, then override the color by case-insensitive name match. -/
def applyOverrides (overrides : List (Str × Str)) (disable : List Str)
    (rule : Rule) : Rule :=
  let rule' := { rule with
    enabled := !((disable.map toLowerStr).contains (toLowerStr rule.name)) }
  match lookupAssoc overrides (toLowerStr rule.name) with
  | some c => { rule' with color := c }
  | none => rule'

/-- Go `BuildRules`. -/
def buildRules (defaults : List Rule) (overrides : List (Str × Str))
    (disable : List Str) (custom : List CustomRule) (compile : RegexCompiler) :
    Except Str (List Rule) :=
  match compileCustoms compile custom with
  | .error e => .error e
  | .ok customRules =>
    .ok (defaults.map (applyOverrides overrides disable) ++ customRules)

/-! ### C3: BuildRules error behaviour -/

theorem containsStr_append_right (a b n : Str) (h : containsStr b n = true) :
    containsStr (a ++ b) n = true := by
  induction a with
  | nil => simpa using h
  | cons c t ih =>
    rw [List.cons_append, containsStr]
    simp [ih]

/-- A fallback rule value for indexed access. -/
def defaultRule : Rule := ⟨[], none, [], [], false⟩

theorem compileCustoms_error_spec (compile : RegexCompiler) (l : List CustomRule)
    (e : Str) (h : compileCustoms compile l = .error e) :
    ∃ c ∈ l, ∃ e0, compile c.pattern = .error e0 ∧
      e = str "invalid custom rule regex " ++ goQuote c.pattern ++ str ": " ++ e0 := by
  induction l with
  | nil => simp [compileCustoms] at h
  | cons c rest ih =>
    rw [compileCustoms] at h
    cases hc : compile c.pattern with
    | error e0 =>
      rw [toRuleGo, hc] at h
      simp at h
      exact ⟨c, by simp, e0, hc, by rw [List.append_assoc, List.append_assoc]; exact h.symm⟩
    | ok re =>
      rw [toRuleGo, hc] at h
      cases hrest : compileCustoms compile rest with
      | error e2 =>
        rw [hrest] at h
        simp at h
        obtain ⟨c2, hmem, e0, h1, h2⟩ := ih (h ▸ hrest)
        exact ⟨c2, by simp [hmem], e0, h1, h2⟩
      | ok rs => rw [hrest] at h; simp at h

theorem compileCustoms_ok_spec (compile : RegexCompiler) (l : List CustomRule)
    (rs : List Rule) (h : compileCustoms compile l = .ok rs) :
    rs.length = l.length ∧
      ∀ k, (hk : k < l.length) → ∃ re,
        compile (l.get ⟨k, hk⟩).pattern = .ok re ∧
        rs.getD k defaultRule =
          ⟨str "custom", some re, (l.get ⟨k, hk⟩).color, (l.get ⟨k, hk⟩).style, true⟩ := by
  induction l generalizing rs with
  | nil =>
    simp [compileCustoms] at h
    subst h
    exact ⟨rfl, fun k hk => absurd hk (by simp)⟩
  | cons c rest ih =>
    rw [compileCustoms] at h
    cases hc : compile c.pattern with
    | error e0 => rw [toRuleGo, hc] at h; simp at h
    | ok re =>
      rw [toRuleGo, hc] at h
      cases hrest : compileCustoms compile rest with
      | error e2 => rw [hrest] at h; simp at h
      | ok rs2 =>
        rw [hrest] at h
        simp at h
        subst h
        obtain ⟨hlen, hall⟩ := ih rs2 hrest
        refine ⟨by simp [hlen], ?_⟩
        intro k hk
        match k with
        | 0 => exact ⟨re, hc, by simp⟩
        | k + 1 =>
          obtain ⟨re2, h1, h2⟩ := hall k (by simpa using hk)
          exact ⟨re2, h1, by simpa using h2⟩

theorem compileCustoms_all_ok (compile : RegexCompiler) (l : List CustomRule)
    (h : ∀ c ∈ l, ∃ re, compile c.pattern = .ok re) :
    ∃ rs, compileCustoms compile l = .ok rs := by
  induction l with
  | nil => exact ⟨[], rfl⟩
  | cons c rest ih =>
    obtain ⟨re, hre⟩ := h c (by simp)
    obtain ⟨rs, hrs⟩ := ih (fun c2 hc2 => h c2 (by simp [hc2]))
    exact ⟨⟨str "custom", some re, c.color, c.style, true⟩ :: rs,
      by rw [compileCustoms, toRuleGo, hre, hrs]⟩

/-- C3: for every defaults/overrides/disable/custom input, `BuildRules`
returns an error iff some custom rule's pattern fails to regex-compile, the
returned error message contains the offending pattern (the external
`regexp.Compile`, modelled by the abstract `compile` parameter, names the
expression in its error text — hypothesis `hNames`), and no custom rule is
dropped: on success the result is the defaults with case-insensitive color
overrides and disables applied, followed by all compiled custom rules in
order. -/
theorem buildRules_spec (defaults : List Rule) (overrides : List (Str × Str))
    (disable : List Str) (custom : List CustomRule) (compile : RegexCompiler)
    (hNames : ∀ p e, compile p = .error e → containsStr e p = true) :
    ((∃ e, buildRules defaults overrides disable custom compile = .error e) ↔
      (∃ c ∈ custom, ∃ e0, compile c.pattern = .error e0)) ∧
    (∀ e, buildRules defaults overrides disable custom compile = .error e →
      ∃ c ∈ custom, (∃ e0, compile c.pattern = .error e0) ∧
        containsStr e c.pattern = true) ∧
    (∀ rules, buildRules defaults overrides disable custom compile = .ok rules →
      ∃ rest, rules = defaults.map (applyOverrides overrides disable) ++ rest ∧
        rest.length = custom.length ∧
        ∀ k, (hk : k < custom.length) → ∃ re,
          compile (custom.get ⟨k, hk⟩).pattern = .ok re ∧
          rest.getD k defaultRule =
            ⟨str "custom", some re, (custom.get ⟨k, hk⟩).color,
              (custom.get ⟨k, hk⟩).style, true⟩) := by
  refine ⟨⟨?_, ?_⟩, ?_, ?_⟩
  · rintro ⟨e, he⟩
    rw [buildRules] at he
    cases hcc : compileCustoms compile custom with
    | error e2 =>
      obtain ⟨c, hmem, e0, h1, _⟩ := compileCustoms_error_spec compile custom e2 hcc
      exact ⟨c, hmem, e0, h1⟩
    | ok rs => rw [hcc] at he; simp at he
  · rintro ⟨c, hmem, e0, he0⟩
    cases hcc : compileCustoms compile custom with
    | error e2 => exact ⟨e2, by rw [buildRules, hcc]⟩
    | ok rs =>
      obtain ⟨_, hall⟩ := compileCustoms_ok_spec compile custom rs hcc
      obtain ⟨k, hkc⟩ := List.mem_iff_get.mp hmem
      obtain ⟨re, hre, _⟩ := hall k.1 k.isLt
      rw [Fin.eta, hkc] at hre
      rw [hre] at he0
      simp at he0
  · intro e he
    rw [buildRules] at he
    cases hcc : compileCustoms compile custom with
    | error e2 =>
      rw [hcc] at he
      simp at he
      subst he
      obtain ⟨c, hmem, e0, h1, h2⟩ := compileCustoms_error_spec compile custom e2 hcc
      refine ⟨c, hmem, ⟨e0, h1⟩, ?_⟩
      subst h2
      exact containsStr_append_right _ _ _ (hNames c.pattern e0 h1)
    | ok rs => rw [hcc] at he; simp at he
  · intro rules hok
    rw [buildRules] at hok
    cases hcc : compileCustoms compile custom with
    | error e2 => rw [hcc] at hok; simp at hok
    | ok rs =>
      rw [hcc] at hok
      simp at hok
      obtain ⟨hlen, hall⟩ := compileCustoms_ok_spec compile custom rs hcc
      exact ⟨rs, hok.symm, hlen, hall⟩

/-- The abstract compiler instance for the witness: fails on the unbalanced
pattern "(" with a Go-style error message naming the expression. -/
def compileW : RegexCompiler := fun p =>
  if p = str "(" then
    .error (str "error parsing regexp: missing closing ): `" ++ p ++ str "`")
  else .ok (fun _ => [])

theorem compileW_names : ∀ p e, compileW p = .error e → containsStr e p = true := by
  intro p e h
  by_cases hp : p = str "("
  · subst hp
    rw [compileW] at h
    simp at h
    subst h
    decide
  · rw [compileW, if_neg hp] at h
    simp at h

/-- Witness for `buildRules_spec`: one invalid custom pattern "(" produces an
error whose message contains "(". -/
theorem buildRules_spec_witness :
    ∃ e, buildRules [] [] [] [⟨str "(", str "red", []⟩] compileW = .error e ∧
      containsStr e (str "(") = true := by
  have h := buildRules_spec [] [] [] [⟨str "(", str "red", []⟩] compileW compileW_names
  obtain ⟨e, he⟩ := h.1.mpr ⟨⟨str "(", str "red", []⟩, by simp,
    str "error parsing regexp: missing closing ): `" ++ str "(" ++ str "`", rfl⟩
  obtain ⟨c, hc, _, hcont⟩ := h.2.1 e he
  simp at hc
  refine ⟨e, he, ?_⟩
  rw [hc] at hcont
  simpa using hcont

/-! ### C2 / C10: ApplyRules semantics -/

/-- Claim-side byte-coverage test: is byte `i` claimed by an accepted span? -/
def coveredBy (spans : List Span) (i : Nat) : Bool :=
  spans.any (fun sp => sp.start ≤ i && i < sp.stop)

/-- Claim-side candidate loop: a candidate match is accepted iff no byte in
its range was already claimed by a previously accepted match. -/
def specAcceptIndices (color style : Str) :
    List (Nat × Nat) → List Span → List Span
  | [], acc => acc
  | (s, e) :: rest, acc =>
    if e ≤ s then specAcceptIndices color style rest acc
    else if (List.range (e - s)).any (fun k => coveredBy acc (s + k)) then
      specAcceptIndices color style rest acc
    else specAcceptIndices color style rest (acc ++ [⟨s, e, color, style⟩])

/-- Claim-side rule loop: each enabled rule's matches are found against the
original unstyled text, in priority order. -/
def specAcceptRules (line : Str) : List Rule → List Span → List Span
  | [], acc => acc
  | r :: rest, acc =>
    if r.enabled then
      match r.regex with
      | some findAll =>
        specAcceptRules line rest (specAcceptIndices r.color r.style (findAll line) acc)
      | none => specAcceptRules line rest acc
    else specAcceptRules line rest acc

/-- Claim-side rendering: first-claim-wins accepted spans, sorted ascending,
stitched with unmatched text copied verbatim. -/
def applyRulesSpec (line : Str) (rules : List Rule) : Str :=
  if rules.isEmpty || line.isEmpty then line
  else
    let spans := specAcceptRules line rules []
    if spans.isEmpty then line
    else stitch line (sortSpans spans) 0

/-- All candidate ranges produced by the rules on `line` end within the line
(guaranteed by Go's `FindAllStringIndex` contract). -/
def candidatesWithin (line : Str) (rules : List Rule) : Bool :=
  rules.all (fun r =>
    match r.regex with
    | some findAll => (findAll line).all (fun p => p.2 ≤ line.length)
    | none => true)

/-- No ESC byte occurs in `s`. -/
def noEsc (s : Str) : Bool := s.all (fun c => c != escChar)

theorem anyOccupied_eq_range_any (occ : List Bool) (s : Nat) :
    ∀ n, anyOccupied occ s n = (List.range n).any (fun k => occ.getD (s + k) false) := by
  intro n
  induction n with
  | zero => simp [anyOccupied]
  | succ n ih => rw [anyOccupied, ih, List.range_succ]; simp

theorem setRange_length (occ : List Bool) (s : Nat) :
    ∀ n, (setRange occ s n).length = occ.length := by
  intro n
  induction n with
  | zero => rfl
  | succ n ih => rw [setRange, List.length_set, ih]

theorem setRange_getD (occ : List Bool) (s : Nat) :
    ∀ n i, (setRange occ s n).getD i false =
      if s ≤ i ∧ i < s + n ∧ i < occ.length then true else occ.getD i false := by
  intro n
  induction n with
  | zero => intro i; simp [setRange]; omega
  | succ n ih =>
    intro i
    rw [setRange]
    by_cases hi : i = s + n
    · subst hi
      by_cases hlen : s + n < occ.length
      · rw [List.getD_eq_getElem?_getD, List.getElem?_set_self (by rw [setRange_length]; exact hlen)]
        simp
        omega
      · have h1 : ((setRange occ s n).set (s + n) true).getD (s + n) false = false := by
          rw [List.getD_eq_getElem?_getD,
            List.getElem?_eq_none (by rw [List.length_set, setRange_length]; omega)]
          rfl
        rw [h1, if_neg (by omega), List.getD_eq_getElem?_getD,
          List.getElem?_eq_none (by omega)]
        rfl
    · rw [List.getD_eq_getElem?_getD, List.getElem?_set_ne (by omega),
        ← List.getD_eq_getElem?_getD _ _ false, ih]
      by_cases h1 : s ≤ i ∧ i < s + n ∧ i < occ.length
      · rw [if_pos h1, if_pos (by omega)]
      · rw [if_neg h1, if_neg (by omega)]

theorem coveredBy_append_one (acc : List Span) (sp : Span) (i : Nat) :
    coveredBy (acc ++ [sp]) i = (coveredBy acc i || (sp.start ≤ i && i < sp.stop)) := by
  simp [coveredBy]

/-- The occupied-byte array of Go `ApplyRules` tracks exactly the bytes covered
by the accepted spans, and the candidate loop computes the claim-side
first-claim-wins acceptance. -/
theorem processIndices_spec (color style : Str) (llen : Nat) :
    ∀ (idxs : List (Nat × Nat)) (occ : List Bool) (acc : List Span),
    occ.length = llen →
    (∀ i, occ.getD i false = coveredBy acc i) →
    (∀ sp ∈ acc, sp.stop ≤ llen ∧ sp.start < sp.stop) →
    (∀ p ∈ idxs, p.2 ≤ llen) →
    (processIndices color style idxs occ acc).1.length = llen ∧
    (∀ i, (processIndices color style idxs occ acc).1.getD i false =
      coveredBy (processIndices color style idxs occ acc).2 i) ∧
    (∀ sp ∈ (processIndices color style idxs occ acc).2,
      sp.stop ≤ llen ∧ sp.start < sp.stop) ∧
    (processIndices color style idxs occ acc).2 = specAcceptIndices color style idxs acc := by
  intro idxs
  induction idxs with
  | nil =>
    intro occ acc hlen hcorr hval _
    exact ⟨hlen, hcorr, hval, rfl⟩
  | cons p rest ih =>
    intro occ acc hlen hcorr hval hwithin
    obtain ⟨s, e⟩ := p
    have hwrest : ∀ p ∈ rest, p.2 ≤ llen := fun p hp => hwithin p (by simp [hp])
    have he : e ≤ llen := hwithin (s, e) (by simp)
    by_cases hse : e ≤ s
    · rw [processIndices, if_pos hse, specAcceptIndices, if_pos hse] at *
      exact ih occ acc hlen hcorr hval hwrest
    · have hacc : anyOccupied occ s (e - s) =
          (List.range (e - s)).any (fun k => coveredBy acc (s + k)) := by
        rw [anyOccupied_eq_range_any]
        congr 1
        funext k
        exact hcorr (s + k)
      by_cases hbusy : anyOccupied occ s (e - s) = true
      · rw [processIndices, if_neg hse, if_pos hbusy]
        rw [specAcceptIndices, if_neg hse, if_pos (hacc ▸ hbusy)]
        exact ih occ acc hlen hcorr hval hwrest
      · rw [processIndices, if_neg hse, if_neg hbusy]
        rw [specAcceptIndices, if_neg hse, if_neg (hacc ▸ hbusy)]
        have hcorr2 : ∀ i, (setRange occ s (e - s)).getD i false =
            coveredBy (acc ++ [⟨s, e, color, style⟩]) i := by
          intro i
          rw [setRange_getD, coveredBy_append_one, ← hcorr i]
          by_cases hin : s ≤ i ∧ i < e
          · rw [if_pos (by omega), Bool.or_eq_true_iff.mpr (Or.inr (by
              simp
              omega))]
          · rw [if_neg (by omega)]
            have : (s ≤ i && i < e) = false := by
              simp
              omega
            simp [this]
        exact ih (setRange occ s (e - s)) (acc ++ [⟨s, e, color, style⟩])
          (by rw [setRange_length, hlen]) hcorr2
          (by
            intro sp hsp
            rcases List.mem_append.mp hsp with h | h
            · exact hval sp h
            · simp at h
              subst h
              exact ⟨he, by show s < e; omega⟩)
          hwrest

/-- The rule loop of Go `ApplyRules` computes the claim-side acceptance. -/
theorem processRules_spec (line : Str) (llen : Nat) :
    ∀ (rules : List Rule) (occ : List Bool) (acc : List Span),
    occ.length = llen →
    (∀ i, occ.getD i false = coveredBy acc i) →
    (∀ sp ∈ acc, sp.stop ≤ llen ∧ sp.start < sp.stop) →
    (∀ r ∈ rules, ∀ fa, r.regex = some fa → ∀ p ∈ fa line, p.2 ≤ llen) →
    (∀ sp ∈ (processRules line rules occ acc).2,
      sp.stop ≤ llen ∧ sp.start < sp.stop) ∧
    (processRules line rules occ acc).2 = specAcceptRules line rules acc := by
  intro rules
  induction rules with
  | nil =>
    intro occ acc _ _ hval _
    exact ⟨hval, rfl⟩
  | cons r rest ih =>
    intro occ acc hlen hcorr hval hwithin
    have hwrest : ∀ r2 ∈ rest, ∀ fa, r2.regex = some fa → ∀ p ∈ fa line, p.2 ≤ llen :=
      fun r2 h2 => hwithin r2 (by simp [h2])
    by_cases hen : r.enabled
    · cases hre : r.regex with
      | none =>
        rw [processRules, if_pos hen, hre, specAcceptRules, if_pos hen, hre]
        exact ih occ acc hlen hcorr hval hwrest
      | some fa =>
        rw [processRules, if_pos hen, hre, specAcceptRules, if_pos hen, hre]
        obtain ⟨h1, h2, h3, h4⟩ := processIndices_spec r.color r.style llen
          (fa line) occ acc hlen hcorr hval
          (hwithin r (by simp) fa hre)
        obtain ⟨g1, g2⟩ := ih _ _ h1 h2 h3 hwrest
        exact ⟨g1, by rw [g2, h4]⟩
    · rw [processRules, if_neg hen, specAcceptRules, if_neg hen]
      exact ih occ acc hlen hcorr hval hwrest

theorem candidatesWithin_forall (line : Str) (rules : List Rule)
    (h : candidatesWithin line rules = true) :
    ∀ r ∈ rules, ∀ fa, r.regex = some fa → ∀ p ∈ fa line, p.2 ≤ line.length := by
  intro r hr fa hfa p hp
  have h1 := List.all_eq_true.mp h r hr
  rw [hfa] at h1
  exact of_decide_eq_true (List.all_eq_true.mp h1 p hp)

theorem replicate_getD_false (n i : Nat) :
    (List.replicate n false).getD i false = false := by
  rw [List.getD_eq_getElem?_getD, List.getElem?_replicate]
  by_cases hi : i < n <;> simp [hi]

/-- Go `ApplyRules` equals the claim-side first-claim-wins description. -/
theorem applyRules_eq_applyRulesSpec (line : Str) (rules : List Rule)
    (h : candidatesWithin line rules = true) :
    applyRules line rules = applyRulesSpec line rules := by
  obtain ⟨_, heq⟩ := processRules_spec line line.length rules
    (List.replicate line.length false) [] (List.length_replicate line.length false)
    (fun i => by rw [replicate_getD_false]; simp [coveredBy])
    (by simp)
    (candidatesWithin_forall line rules h)
  unfold applyRules applyRulesSpec
  rw [heq]

theorem spanLe_trans (a b c : Span) (h1 : spanLe a b = true) (h2 : spanLe b c = true) :
    spanLe a c = true := by
  simp only [spanLe, Bool.or_eq_true, Bool.and_eq_true, decide_eq_true_eq] at *
  omega

theorem spanLe_total (a b : Span) : (spanLe a b || spanLe b a) = true := by
  simp only [spanLe, Bool.or_eq_true, Bool.and_eq_true, decide_eq_true_eq]
  omega

instance : IsTotal Span SpanOrder :=
  ⟨fun a b => by
    unfold SpanOrder
    rcases Bool.or_eq_true_iff.mp (spanLe_total a b) with h | h
    · exact Or.inl h
    · exact Or.inr h⟩

instance : IsTrans Span SpanOrder :=
  ⟨fun a b c => spanLe_trans a b c⟩

/-- The sorted accepted spans have ascending start offsets. -/
theorem sortSpans_ascending (spans : List Span) :
    (sortSpans spans).Pairwise (fun a b => a.start ≤ b.start) := by
  have h := List.sorted_insertionSort SpanOrder spans
  exact h.imp (fun hab => by
    have hab2 := hab
    unfold SpanOrder at hab2
    simp only [spanLe, Bool.or_eq_true, Bool.and_eq_true, decide_eq_true_eq] at hab2
    omega)

theorem mem_sortSpans (spans : List Span) (sp : Span) :
    sp ∈ sortSpans spans ↔ sp ∈ spans :=
  (List.perm_insertionSort SpanOrder spans).mem_iff

/-- The concrete example line of the specification. -/
def exLine : Str := str "2024-01-02T10:00:00Z connected"

/-- Expected output of `ApplyRules` on `exLine` with the default rules: the
timestamp rule (cyan, priority 1) claims bytes 0–20, the success rule (green
bold) still colors "connected"; the overlapping lower-priority ipv6 and port
candidates against already-claimed bytes are rejected. -/
def exStyled : Str :=
  str "\x1b[36m2024-01-02T10:00:00Z\x1b[0m \x1b[1;32mconnected\x1b[0m"

/-- C2: for every line and every ordered rule list whose matchers respect the
`FindAllStringIndex` bounds contract, `ApplyRules` finds each enabled rule's
matches against the original unstyled text in priority order and accepts a
candidate iff no byte in its range was already claimed by a previously
accepted match (first-claim-wins, not longest-match-wins), stitching accepted
spans in ascending start order with unmatched text copied verbatim: it equals
the claim-side description `applyRulesSpec`, whose sorted span list has
ascending start offsets. -/
theorem applyRules_first_claim_wins (line : Str) (rules : List Rule)
    (h : candidatesWithin line rules = true) :
    applyRules line rules = applyRulesSpec line rules ∧
    (sortSpans (specAcceptRules line rules [])).Pairwise
      (fun a b => a.start ≤ b.start) :=
  ⟨applyRules_eq_applyRulesSpec line rules h, sortSpans_ascending _⟩

/-- Witness for `applyRules_first_claim_wins` at the specification's concrete
example: "2024-01-02T10:00:00Z connected" with the default rules yields the
timestamp span plus the colored "connected". -/
theorem applyRules_first_claim_wins_witness :
    candidatesWithin exLine buildDefaultRules = true ∧
    applyRules exLine buildDefaultRules = exStyled :=
  ⟨by decide,
    ((applyRules_first_claim_wins exLine buildDefaultRules (by decide)).1).trans
      (by decide)⟩

/-- Bytes that terminate neither the scan (ESC) nor an escape sequence (`m`);
color codes consist only of such bytes. -/
def goodCode (s : Str) : Bool := s.all (fun c => c != 'm' && c != escChar)

theorem ansiStyles_good (n v : Str) (h : ansiStyles n = some v) : goodCode v = true := by
  unfold ansiStyles at h
  split_ifs at h <;> simp at h <;> subst h <;> decide

theorem ansiColors_good (n v : Str) (h : ansiColors n = some v) : goodCode v = true := by
  unfold ansiColors at h
  split_ifs at h <;> simp at h <;> subst h <;> decide

theorem goodCode_append (a b : Str) :
    goodCode (a ++ b) = (goodCode a && goodCode b) := by
  simp [goodCode]

theorem goodCode_intercalate (parts : List Str)
    (h : ∀ p ∈ parts, goodCode p = true) :
    goodCode (List.intercalate (str ";") parts) = true := by
  induction parts with
  | nil => decide
  | cons x rest ih =>
    cases rest with
    | nil => simpa [List.intercalate] using h x (by simp)
    | cons y t =>
      have hx := h x (by simp)
      have hrest := ih (fun p hp => h p (by simp [hp]))
      have hstep : List.intercalate (str ";") (x :: y :: t) =
          x ++ str ";" ++ List.intercalate (str ";") (y :: t) := by
        simp [List.intercalate, List.intersperse]
      rw [hstep, goodCode_append, goodCode_append, hx, hrest]
      decide

theorem colorCode_good (colorName style : Str) :
    goodCode (colorCode colorName style) = true := by
  unfold colorCode
  apply goodCode_intercalate
  intro p hp
  rcases List.mem_append.mp hp with h | h
  · by_cases h1 : toLowerStr style ≠ []
    · rw [if_pos h1] at h
      cases hs : ansiStyles (toLowerStr style) with
      | none => rw [hs] at h; simp at h
      | some v =>
        rw [hs] at h
        simp at h
        subst h
        exact ansiStyles_good _ _ hs
    · rw [if_neg h1] at h
      simp at h
  · by_cases h2 : toLowerStr colorName ≠ []
    · rw [if_pos h2] at h
      cases hc : ansiColors (toLowerStr colorName) with
      | none => rw [hc] at h; simp at h
      | some v =>
        rw [hc] at h
        simp at h
        subst h
        exact ansiColors_good _ _ hc
    · rw [if_neg h2] at h
      simp at h

theorem noEsc_stripGo_self (s : Str) (h : noEsc s = true) :
    stripGo s false = s := by
  induction s with
  | nil => rfl
  | cons c rest ih =>
    simp only [noEsc, List.all_cons, Bool.and_eq_true, bne_iff_ne] at h
    rw [stripGo, if_neg h.1]
    simp only [Bool.false_eq_true, if_false]
    rw [ih (by simp [noEsc, h.2])]

theorem noEsc_escStateFrom (s : Str) (h : noEsc s = true) :
    escStateFrom false s = false := by
  induction s with
  | nil => rfl
  | cons c rest ih =>
    simp only [noEsc, List.all_cons, Bool.and_eq_true, bne_iff_ne] at h
    rw [escStateFrom, if_neg h.1]
    simp only [Bool.false_and, Bool.false_eq_true, if_false]
    exact ih (by simp [noEsc, h.2])

/-- Scanning a run of good bytes while inside an escape sequence skips it. -/
theorem stripGo_skip_good (l rest : Str) (h : goodCode l = true) :
    stripGo (l ++ rest) true = stripGo rest true := by
  induction l with
  | nil => rfl
  | cons c t ih =>
    simp only [goodCode, List.all_cons, Bool.and_eq_true, bne_iff_ne] at h
    rw [List.cons_append, stripGo, if_neg h.1.2]
    simp only [if_pos rfl, if_neg h.1.1]
    exact ih h.2

theorem escStateFrom_skip_good (l : Str) (h : goodCode l = true) :
    escStateFrom true l = true := by
  induction l with
  | nil => rfl
  | cons c t ih =>
    simp only [goodCode, List.all_cons, Bool.and_eq_true, bne_iff_ne] at h
    rw [escStateFrom, if_neg h.1.2]
    have hm : (true && c = 'm') = false := by simp [h.1.1]
    rw [hm]
    simp only [Bool.false_eq_true, if_false]
    exact ih h.2

theorem escStateFrom_resetSeq : escStateFrom false resetSeq = false := by decide

theorem noEsc_drop (l : Str) (n : Nat) (h : noEsc l = true) :
    noEsc (l.drop n) = true :=
  List.all_eq_true.mpr fun c hc =>
    List.all_eq_true.mp h c (List.drop_subset n l hc)

theorem noEsc_take (l : Str) (n : Nat) (h : noEsc l = true) :
    noEsc (l.take n) = true :=
  List.all_eq_true.mpr fun c hc =>
    List.all_eq_true.mp h c (List.take_subset n l hc)

theorem noEsc_slice (l : Str) (a b : Nat) (h : noEsc l = true) :
    noEsc (sliceGo l a b) = true :=
  noEsc_drop _ _ (noEsc_take _ _ h)

/-- Stripping a `Wrap`-styled good text returns the text. -/
theorem stripGo_wrap (t a b : Str) (h : noEsc t = true) :
    stripGo (wrap t a b) false = t := by
  unfold wrap
  by_cases hcode : colorCode a b = []
  · rw [if_pos hcode]
    exact noEsc_stripGo_self t h
  · rw [if_neg hcode]
    rw [stripGo, if_pos rfl]
    rw [stripGo, if_neg (by decide : ¬('[' : Char) = escChar)]
    simp only [if_pos rfl, if_neg (by decide : ¬('[' : Char) = 'm')]
    rw [stripGo_skip_good _ _ (colorCode_good a b)]
    rw [stripGo, if_neg (by decide : ¬('m' : Char) = escChar)]
    simp only [if_pos rfl, if_pos (rfl : ('m' : Char) = 'm'), if_true]
    rw [stripGo_append, noEsc_stripGo_self t h, noEsc_escStateFrom t h,
      stripANSI_resetSeq_from_false, List.append_nil]

/-- The escape-scanner state is closed after a `Wrap`-styled good text. -/
theorem escStateFrom_wrap (t a b : Str) (h : noEsc t = true) :
    escStateFrom false (wrap t a b) = false := by
  unfold wrap
  by_cases hcode : colorCode a b = []
  · rw [if_pos hcode]
    exact noEsc_escStateFrom t h
  · rw [if_neg hcode]
    rw [escStateFrom, if_pos rfl]
    rw [escStateFrom, if_neg (by decide : ¬('[' : Char) = escChar)]
    have hb : (true && ('[' : Char) = 'm') = false := by decide
    rw [hb]
    simp only [Bool.false_eq_true, if_false]
    have := escStateFrom_append (colorCode a b) ('m' :: (t ++ resetSeq)) true
    rw [this, escStateFrom_skip_good _ (colorCode_good a b)]
    rw [escStateFrom, if_neg (by decide : ¬('m' : Char) = escChar)]
    have hm : (true && ('m' : Char) = 'm') = true := by decide
    rw [hm]
    simp only [if_pos rfl, if_true]
    rw [escStateFrom_append, noEsc_escStateFrom t h, escStateFrom_resetSeq]

theorem slice_decomp (l : Str) (pos start : Nat) (h : pos ≤ start) :
    l.drop pos = sliceGo l pos start ++ l.drop start := by
  unfold sliceGo
  conv_lhs => rw [← List.take_append_drop start l]
  rw [List.drop_append_eq_append_drop]
  congr 1
  have hlen : (l.take start).length = min start l.length := List.length_take start l
  by_cases hp : pos ≤ min start l.length
  · have h0 : pos - (l.take start).length = 0 := by omega
    rw [h0, List.drop_zero]
  · have h1 : l.length ≤ start := by omega
    rw [List.drop_eq_nil_of_le h1]
    simp

/-- Stripping the stitched output of valid spans recovers the unstyled line
from the current position on. -/
theorem stitch_strip (line : Str) (hesc : noEsc line = true) :
    ∀ (spans : List Span) (pos : Nat),
    (∀ sp ∈ spans, sp.stop ≤ line.length ∧ sp.start < sp.stop) →
    stripGo (stitch line spans pos) false = line.drop pos := by
  intro spans
  induction spans with
  | nil =>
    intro pos _
    exact noEsc_stripGo_self _ (noEsc_drop line pos hesc)
  | cons sp rest ih =>
    intro pos hval
    rw [stitch]
    by_cases hlt : sp.start < pos
    · rw [if_pos hlt]
      exact ih pos (fun s hs => hval s (List.mem_cons_of_mem sp hs))
    · rw [if_neg hlt]
      have hgood1 : noEsc (sliceGo line pos sp.start) = true := noEsc_slice _ _ _ hesc
      have hgood2 : noEsc (sliceGo line sp.start sp.stop) = true := noEsc_slice _ _ _ hesc
      rw [stripGo_append, noEsc_stripGo_self _ hgood1, noEsc_escStateFrom _ hgood1,
        stripGo_append, stripGo_wrap _ _ _ hgood2, escStateFrom_wrap _ _ _ hgood2,
        ih sp.stop (fun s hs => hval s (List.mem_cons_of_mem sp hs))]
      have hv := hval sp (by simp)
      rw [← slice_decomp line sp.start sp.stop (Nat.le_of_lt hv.2),
        ← slice_decomp line pos sp.start (Nat.not_lt.mp hlt)]

/-- C10: colorization never alters the visible text — for every line without
an ESC byte and every rule list respecting the matcher bounds contract,
stripping ANSI escapes from the output of `ApplyRules` yields the line. -/
theorem stripANSI_applyRules (line : Str) (rules : List Rule)
    (hesc : noEsc line = true) (h : candidatesWithin line rules = true) :
    stripANSI (applyRules line rules) = line := by
  obtain ⟨hval, _⟩ := processRules_spec line line.length rules
    (List.replicate line.length false) [] (List.length_replicate line.length false)
    (fun i => by rw [replicate_getD_false]; simp [coveredBy])
    (by simp)
    (candidatesWithin_forall line rules h)
  unfold applyRules
  by_cases h0 : rules.isEmpty || line.isEmpty
  · rw [if_pos h0]
    exact noEsc_stripGo_self line hesc
  · rw [if_neg h0]
    simp only []
    by_cases hsp : (processRules line rules (List.replicate line.length false) []).2.isEmpty
    · rw [if_pos hsp]
      exact noEsc_stripGo_self line hesc
    · rw [if_neg hsp]
      unfold stripANSI
      rw [stitch_strip line hesc _ 0
        (fun sp hsp2 => hval sp ((mem_sortSpans _ sp).mp hsp2)), List.drop_zero]

/-- Witness for `stripANSI_applyRules` at the concrete example line and the
default rules. -/
theorem stripANSI_applyRules_witness :
    noEsc exLine = true ∧ candidatesWithin exLine buildDefaultRules = true ∧
      stripANSI (applyRules exLine buildDefaultRules) = exLine :=
  ⟨by decide, by decide,
    stripANSI_applyRules exLine buildDefaultRules (by decide) (by decide)⟩

/-! ## Viewer state machine (package ui)

Strings are rune lists here (`utf8.RuneCountInString` = `List.length`); Go
`int` fields are `Int`.  `Matches` holds line indices produced by the search
loop, hence naturally non-negative: `List Nat`. -/

/-- A selection anchor position. -/
structure Position where
  line : Int
  col : Int
deriving DecidableEq

/-- Go `SelectionMode`. -/
inductive SelectionMode where
  | selNone
  | selChar
  | selLine
  | selBlock
deriving DecidableEq

/-- The Go `Viewer` struct (pure state; terminal/IO fields are external). -/
structure Viewer where
  Lines : List Str
  Rules : List Rule
  Plain : Bool
  Cursor : Int
  CursorCol : Int
  GoalCol : Int
  Top : Int
  TopSub : Int
  Query : Str
  Matches : List Nat
  MatchIndex : Int
  SelectStart : Option Position
  SelectMode : SelectionMode
  Status : Str
  StatusAtTop : Bool
  LineNumbers : Bool
  Wrap : Bool
  HOffset : Int
  Follow : Bool
  InPrompt : Bool

/-- The viewer constructed by `Run` from the initial line batch. -/
def initViewer (lines : List Str) (rules : List Rule)
    (plain statusAtTop lineNumbers follow : Bool) : Viewer :=
  { Lines := lines, Rules := rules, Plain := plain, Cursor := 0, CursorCol := 0,
    GoalCol := 0, Top := 0, TopSub := 0, Query := [], Matches := [],
    MatchIndex := 0, SelectStart := none, SelectMode := .selNone, Status := [],
    StatusAtTop := statusAtTop, LineNumbers := lineNumbers, Wrap := false,
    HOffset := 0, Follow := follow, InPrompt := false }

/-- Go `lineRuneCount`. -/
def lineRuneCount (v : Viewer) (idx : Int) : Int :=
  if idx < 0 || (v.Lines.length : Int) ≤ idx then 0
  else ((v.Lines.getD idx.toNat []).length : Int)

/-- Go `clampCursor`. -/
def clampCursor (v : Viewer) : Viewer :=
  let c1 := if v.Cursor < 0 then 0 else v.Cursor
  let c2 := if (v.Lines.length : Int) ≤ c1 then (v.Lines.length : Int) - 1 else c1
  let c3 := if v.Lines.length = 0 then 0 else c2
  let v1 := { v with Cursor := c3 }
  let maxCol0 := lineRuneCount v1 v1.Cursor
  let maxCol := if 0 < maxCol0 then maxCol0 - 1 else maxCol0
  let col1 := if v1.CursorCol < 0 then 0 else v1.CursorCol
  let col2 := if maxCol < col1 then maxCol else col1
  { v1 with CursorCol := col2 }

/-- Go `applyGoalCol`. -/
def applyGoalCol (v : Viewer) : Viewer :=
  let g := if v.GoalCol < 0 then 0 else v.GoalCol
  let v1 := { v with GoalCol := g }
  let maxCol0 := lineRuneCount v1 v1.Cursor
  let maxCol := if 0 < maxCol0 then maxCol0 - 1 else maxCol0
  let col1 := if maxCol < v1.GoalCol then maxCol else v1.GoalCol
  let col2 := if col1 < 0 then 0 else col1
  { v1 with CursorCol := col2 }

/-- Go `moveCursor`. -/
def moveCursor (v : Viewer) (delta : Int) : Viewer :=
  { applyGoalCol (clampCursor { v with Cursor := v.Cursor + delta }) with
    Status := [] }

/-- Go `moveCursorCol`. -/
def moveCursorCol (v : Viewer) (delta : Int) : Viewer :=
  let v1 := clampCursor { v with CursorCol := v.CursorCol + delta }
  { v1 with GoalCol := v1.CursorCol, Status := [] }

/-- Go `moveLineStart`. -/
def moveLineStart (v : Viewer) : Viewer :=
  let v1 := clampCursor { v with CursorCol := 0 }
  { v1 with GoalCol := v1.CursorCol, Status := [] }

/-- Go `moveLineEnd`. -/
def moveLineEnd (v : Viewer) : Viewer :=
  let maxCol0 := lineRuneCount v v.Cursor
  let maxCol := if 0 < maxCol0 then maxCol0 - 1 else maxCol0
  let v1 := clampCursor { v with CursorCol := maxCol }
  { v1 with GoalCol := v1.CursorCol, Status := [] }

/-- Go `page` (the terminal height is an external input, passed explicitly). -/
def page (v : Viewer) (height delta : Int) : Viewer :=
  let contentHeight0 := height - 2
  let contentHeight := if contentHeight0 < 1 then 1 else contentHeight0
  applyGoalCol (clampCursor { v with Cursor := v.Cursor + delta * contentHeight })

/-- Go `cursorTop`. -/
def cursorTop (v : Viewer) : Viewer :=
  { v with Cursor := 0, CursorCol := 0, GoalCol := 0, Status := [] }

/-- Go `cursorBottom`. -/
def cursorBottom (v : Viewer) : Viewer :=
  if v.Lines.length = 0 then { v with Cursor := 0, CursorCol := 0, GoalCol := 0 }
  else
    { v with
      Cursor := (v.Lines.length : Int) - 1, CursorCol := 0, GoalCol := 0,
      Status := [] }

/-- Go `toggleWrap`. -/
def toggleWrap (v : Viewer) : Viewer :=
  { v with Wrap := !v.Wrap, HOffset := 0, TopSub := 0, Status := [] }

/-- Go `isWordRune` (ASCII model of `unicode.IsLetter`/`IsDigit`). -/
def isWordRune (c : Char) : Bool := c = '_' || c.isAlpha || c.isDigit

/-- The backward scan `for col > 0 && isWordRune(line[col-1]) { col-- }`. -/
def wordStart (line : Str) : Nat → Nat
  | 0 => 0
  | c + 1 => if isWordRune (chAt line c) then wordStart line c else c + 1

/-- The loop body of Go `moveWordForward`, fuelled (the Go loop advances
`lineIdx` on every iteration that continues, so `lines.length + 1` fuel always
suffices; fuel exhaustion is unreachable). -/
def mwfLoop (v : Viewer) : Nat → Int → Nat → Viewer
  | _, _, 0 => v
  | lineIdx, col, fuel + 1 =>
    let line := v.Lines.getD lineIdx []
    if line.length = 0 then
      if v.Lines.length ≤ lineIdx + 1 then
        { clampCursor { v with Cursor := (lineIdx : Int), CursorCol := 0 } with
          Status := [] }
      else mwfLoop v (lineIdx + 1) 0 fuel
    else
      let col := if col < 0 then 0 else col
      if (line.length : Int) ≤ col then
        if v.Lines.length ≤ lineIdx + 1 then
          { clampCursor
              { v with
                Cursor := (lineIdx : Int)
                CursorCol := (line.length : Int) - 1 } with
            Status := [] }
        else mwfLoop v (lineIdx + 1) 0 fuel
      else
        let pos := col.toNat
        let pos := if isWordRune (chAt line pos) then
          pos + runLen isWordRune line pos else pos
        let pos := pos + runLen (fun c => !isWordRune c) line pos
        if pos < line.length then
          let v1 := clampCursor
            { v with
              Cursor := (lineIdx : Int)
              CursorCol := (pos : Int) }
          { v1 with GoalCol := v1.CursorCol, Status := [] }
        else if v.Lines.length ≤ lineIdx + 1 then
          { clampCursor
              { v with
                Cursor := (lineIdx : Int)
                CursorCol := (line.length : Int) - 1 } with
            Status := [] }
        else mwfLoop v (lineIdx + 1) 0 fuel

/-- Go `moveWordForward`. -/
def moveWordForward (v : Viewer) : Viewer :=
  if v.Lines.length = 0 then v
  else mwfLoop v v.Cursor.toNat v.CursorCol (v.Lines.length + 1)

/-- The loop body of Go `moveWordEnd`, fuelled like `mwfLoop`. -/
def mweLoop (v : Viewer) : Nat → Int → Nat → Viewer
  | _, _, 0 => v
  | lineIdx, col, fuel + 1 =>
    let line := v.Lines.getD lineIdx []
    if line.length = 0 then
      if v.Lines.length ≤ lineIdx + 1 then
        { clampCursor { v with Cursor := (lineIdx : Int), CursorCol := 0 } with
          Status := [] }
      else mweLoop v (lineIdx + 1) 0 fuel
    else
      let col := if col < 0 then 0 else col
      if (line.length : Int) ≤ col then
        if v.Lines.length ≤ lineIdx + 1 then
          { clampCursor
              { v with
                Cursor := (lineIdx : Int)
                CursorCol := (line.length : Int) - 1 } with
            Status := [] }
        else mweLoop v (lineIdx + 1) 0 fuel
      else
        let pos := col.toNat
        if isWordRune (chAt line pos) then
          let pos2 := pos + runLen isWordRune line pos
          let v1 := clampCursor
            { v with
              Cursor := (lineIdx : Int)
              CursorCol := (pos2 : Int) - 1 }
          { v1 with GoalCol := v1.CursorCol, Status := [] }
        else
          let pos2 := pos + runLen (fun c => !isWordRune c) line pos
          if pos2 < line.length then
            let pos3 := pos2 + runLen isWordRune line pos2
            { clampCursor
                { v with
                  Cursor := (lineIdx : Int)
                  CursorCol := (pos3 : Int) - 1 } with
              Status := [] }
          else if v.Lines.length ≤ lineIdx + 1 then
            { clampCursor
                { v with
                  Cursor := (lineIdx : Int)
                  CursorCol := (line.length : Int) - 1 } with
              Status := [] }
          else mweLoop v (lineIdx + 1) 0 fuel

/-- Go `moveWordEnd`. -/
def moveWordEnd (v : Viewer) : Viewer :=
  if v.Lines.length = 0 then v
  else mweLoop v v.Cursor.toNat v.CursorCol (v.Lines.length + 1)

/-- Ample fuel for the backward word-motion loops (they decrease the line
index or the column on every continuing iteration). -/
def mwbFuel (v : Viewer) : Nat :=
  (v.Lines.map List.length).sum + v.Lines.length + v.CursorCol.toNat + 2

/-- The skip-non-word inner loop of Go `moveWordBackward`, fuelled. -/
def mwbInner (v : Viewer) : Int → Int → Nat → Viewer
  | _, _, 0 => v
  | lineIdx, col, fuel + 1 =>
    if lineIdx < 0 then
      { clampCursor { v with Cursor := 0, CursorCol := 0 } with Status := [] }
    else
      let line := v.Lines.getD lineIdx.toNat []
      if line.length = 0 then mwbInner v (lineIdx - 1) 0 fuel
      else if col < 0 then
        if 0 ≤ lineIdx - 1 then
          mwbInner v (lineIdx - 1)
            (((v.Lines.getD (lineIdx - 1).toNat []).length : Int) - 1) fuel
        else
          { clampCursor { v with Cursor := 0, CursorCol := 0 } with Status := [] }
      else if isWordRune (chAt line col.toNat) then
        let c2 := wordStart line col.toNat
        let v1 := clampCursor { v with Cursor := lineIdx, CursorCol := (c2 : Int) }
        { v1 with GoalCol := v1.CursorCol, Status := [] }
      else mwbInner v lineIdx (col - 1) fuel

/-- The outer loop of Go `moveWordBackward`, fuelled. -/
def mwbOuter (v : Viewer) : Int → Int → Nat → Viewer
  | _, _, 0 => v
  | lineIdx, col, fuel + 1 =>
    if lineIdx < 0 then
      { clampCursor { v with Cursor := 0, CursorCol := 0 } with Status := [] }
    else
      let line := v.Lines.getD lineIdx.toNat []
      if line.length = 0 then mwbOuter v (lineIdx - 1) 0 fuel
      else
        let col := if (line.length : Int) - 1 < col then (line.length : Int) - 1 else col
        let col := if col < 0 then (line.length : Int) - 1 else col
        if col = 0 then
          let lineIdx2 := lineIdx - 1
          let col2 := if 0 ≤ lineIdx2 then
            ((v.Lines.getD lineIdx2.toNat []).length : Int) - 1 else col
          mwbOuter v lineIdx2 col2 fuel
        else mwbInner v lineIdx (col - 1) (mwbFuel v)

/-- Go `moveWordBackward`. -/
def moveWordBackward (v : Viewer) : Viewer :=
  if v.Lines.length = 0 then v
  else mwbOuter v v.Cursor v.CursorCol (mwbFuel v)

/-- Go `unicode.IsSpace` on the Latin-1 range. -/
def isSpaceGo (c : Char) : Bool :=
  c = ' ' || c = '\t' || c = '\n' || c = Char.ofNat 11 || c = Char.ofNat 12 ||
    c = '\r' || c = Char.ofNat 0x85 || c = Char.ofNat 0xA0

/-- Go `strings.TrimSpace`. -/
def trimSpace (s : Str) : Str :=
  ((s.dropWhile isSpaceGo).reverse.dropWhile isSpaceGo).reverse

/-- Go `strings.Index` (rune granularity): index of the first occurrence of
`needle` in `hay`, or -1. -/
def strIndexGo (needle : Str) : Str → Nat → Int
  | hay, i =>
    if needle.isPrefixOf hay then (i : Int)
    else
      match hay with
      | [] => -1
      | _ :: t => strIndexGo needle t (i + 1)

/-- Go `strings.Index`. -/
def strIndex (hay needle : Str) : Int := strIndexGo needle hay 0

/-- Go `matchColForLine`: rune column of the first case-insensitive occurrence
of the query in the given line, 0 when absent or out of range. -/
def matchColForLine (v : Viewer) (lineIdx : Int) : Int :=
  if lineIdx < 0 || (v.Lines.length : Int) ≤ lineIdx then 0
  else if v.Query = [] then 0
  else
    let line := v.Lines.getD lineIdx.toNat []
    let idx := strIndex (toLowerStr line) (toLowerStr v.Query)
    if idx = -1 then 0
    else ((line.take idx.toNat).length : Int)

/-- Go `closestMatchIndex`: nearest match index in the requested direction,
wrapping to the first/last match if none qualifies. -/
def closestMatchIndex (v : Viewer) (dir : Int) : Nat :=
  if v.Matches = [] then 0
  else if 0 ≤ dir then
    match v.Matches.findIdx? (fun (line : Nat) => v.Cursor ≤ (line : Int)) with
    | some i => i
    | none => 0
  else
    match (List.range v.Matches.length).reverse.find?
        (fun i => ((v.Matches.getD i 0 : Nat) : Int) ≤ v.Cursor) with
    | some i => i
    | none => v.Matches.length - 1

/-- Go `setQuery`. -/
def setQuery (v : Viewer) (query : Str) (dir : Int) : Viewer :=
  let v := { v with Query := trimSpace query, Matches := [], MatchIndex := 0 }
  if v.Query = [] then v
  else
    let lowerQuery := toLowerStr v.Query
    let ms := (List.range v.Lines.length).filterMap (fun i =>
      if containsStr (toLowerStr (v.Lines.getD i [])) lowerQuery then some i
      else none)
    let v := { v with Matches := ms }
    if v.Matches = [] then { v with Status := str "no matches" }
    else
      let mi := closestMatchIndex v dir
      let cur := ((v.Matches.getD mi 0 : Nat) : Int)
      let col := matchColForLine v cur
      { v with
        MatchIndex := (mi : Int), Cursor := cur, CursorCol := col,
        GoalCol := col, Status := [] }

/-- Go `nextMatch`. -/
def nextMatch (v : Viewer) (dir : Int) : Viewer :=
  if v.Matches = [] then { v with Status := str "no matches" }
  else
    let mi := v.MatchIndex + dir
    let mi := if mi < 0 then (v.Matches.length : Int) - 1 else mi
    let mi := if (v.Matches.length : Int) ≤ mi then 0 else mi
    let cur := ((v.Matches.getD mi.toNat 0 : Nat) : Int)
    let col := matchColForLine v cur
    { v with
      MatchIndex := mi, Cursor := cur, CursorCol := col, GoalCol := col,
      Status := [] }

/-- Go `clearSelection`. -/
def clearSelection (v : Viewer) : Viewer :=
  { v with
    SelectMode := .selNone, SelectStart := none,
    Status := str "selection cleared" }

/-- Go `toggleSelect`. -/
def toggleSelect (v : Viewer) (mode : SelectionMode) : Viewer :=
  if v.SelectMode = mode ∧ v.SelectStart.isSome then clearSelection v
  else
    let startCol := if mode = SelectionMode.selBlock then v.GoalCol else v.CursorCol
    let v := { v with
      SelectMode := mode, SelectStart := some ⟨v.Cursor, startCol⟩ }
    match mode with
    | .selChar => { v with Status := str "visual" }
    | .selLine => { v with Status := str "visual-line" }
    | .selBlock => { v with Status := str "visual-block" }
    | .selNone => v

/-- Go `appendLines`. -/
def appendLines (v : Viewer) (lines : List Str) : Viewer :=
  if lines.length = 0 then v
  else
    let atEnd := (v.Lines.length : Int) - 1 ≤ v.Cursor
    let v2 := { v with Lines := v.Lines ++ lines }
    if v2.Follow && atEnd then
      { v2 with Cursor := (v2.Lines.length : Int) - 1, CursorCol := 0, GoalCol := 0 }
    else v2

/-- The viewer operations of the claims: cursor motion, word motion, search,
match cycling, selection, wrap toggle, append (one constructor per state
transition of the source). -/
inductive Op where
  | moveCursor (delta : Int)
  | moveCursorCol (delta : Int)
  | moveLineStart
  | moveLineEnd
  | moveWordForward
  | moveWordBackward
  | moveWordEnd
  | toggleWrap
  | cursorTop
  | cursorBottom
  | page (height delta : Int)
  | setQuery (query : Str) (dir : Int)
  | nextMatch (dir : Int)
  | toggleSelect (mode : SelectionMode)
  | clearSelection
  | appendLines (batch : List Str)

/-- Dispatch one operation. -/
def step (v : Viewer) : Op → Viewer
  | .moveCursor d => moveCursor v d
  | .moveCursorCol d => moveCursorCol v d
  | .moveLineStart => moveLineStart v
  | .moveLineEnd => moveLineEnd v
  | .moveWordForward => moveWordForward v
  | .moveWordBackward => moveWordBackward v
  | .moveWordEnd => moveWordEnd v
  | .toggleWrap => toggleWrap v
  | .cursorTop => cursorTop v
  | .cursorBottom => cursorBottom v
  | .page h d => page v h d
  | .setQuery q d => setQuery v q d
  | .nextMatch d => nextMatch v d
  | .toggleSelect m => toggleSelect v m
  | .clearSelection => clearSelection v
  | .appendLines b => appendLines v b

/-- Apply a sequence of operations. -/
def applyOps (v : Viewer) (ops : List Op) : Viewer := ops.foldl step v

/-! ### C8: wrap toggle frame effect -/

/-- C8: `toggleWrap` flips the wrap flag and resets the horizontal offset and
the wrap-segment scroll index to 0, while leaving the logical cursor (line,
column), the line store, the selection and the search state unchanged;
toggling twice restores the wrap flag with the cursor preserved. -/
theorem toggleWrap_frame (v : Viewer) :
    (toggleWrap v).Wrap = !v.Wrap ∧ (toggleWrap v).HOffset = 0 ∧
    (toggleWrap v).TopSub = 0 ∧
    (toggleWrap v).Cursor = v.Cursor ∧ (toggleWrap v).CursorCol = v.CursorCol ∧
    (toggleWrap v).Lines = v.Lines ∧
    (toggleWrap v).SelectStart = v.SelectStart ∧
    (toggleWrap v).SelectMode = v.SelectMode ∧
    (toggleWrap v).Query = v.Query ∧ (toggleWrap v).Matches = v.Matches ∧
    (toggleWrap v).MatchIndex = v.MatchIndex ∧
    (toggleWrap (toggleWrap v)).Wrap = v.Wrap ∧
    (toggleWrap (toggleWrap v)).Cursor = v.Cursor ∧
    (toggleWrap (toggleWrap v)).CursorCol = v.CursorCol := by
  refine ⟨rfl, rfl, rfl, rfl, rfl, rfl, rfl, rfl, rfl, rfl, rfl, ?_, rfl, rfl⟩
  simp [toggleWrap]

/-! ### C7: appendLines (corrected: auto-advance requires follow mode) -/

/-- Counterexample to C7 as stated: with follow mode off and the cursor on the
then-last line, `appendLines` does not advance the cursor to the new last
line. -/
theorem appendLines_counterexample :
    (initViewer [str "a"] [] false false false false).Cursor =
      ((initViewer [str "a"] [] false false false false).Lines.length : Int) - 1 ∧
    (appendLines (initViewer [str "a"] [] false false false false)
        [str "b"]).Lines.length = 2 ∧
    ¬(appendLines (initViewer [str "a"] [] false false false false)
        [str "b"]).Cursor = (2 : Int) - 1 := by
  refine ⟨rfl, rfl, ?_⟩
  intro h
  simp [appendLines, initViewer] at h

/-- C7 amended: for every non-empty batch, `appendLines` extends the line
store by the batch in order; in follow mode (`Follow = true`), if the cursor
was positioned on the then-last line it auto-advances to the new last line
(resetting the column), and otherwise — including whenever follow mode is
off — the viewer is left completely unchanged apart from the extended line
store (cursor and scroll untouched). -/
theorem appendLines_spec (v : Viewer) (batch : List Str) (hb : batch ≠ []) :
    (appendLines v batch).Lines = v.Lines ++ batch ∧
    ((v.Follow = true ∧ (v.Lines.length : Int) - 1 ≤ v.Cursor) →
      (appendLines v batch).Cursor =
        ((v.Lines.length + batch.length : Nat) : Int) - 1 ∧
      (appendLines v batch).CursorCol = 0 ∧ (appendLines v batch).GoalCol = 0 ∧
      (appendLines v batch).Top = v.Top ∧
      (appendLines v batch).TopSub = v.TopSub ∧
      (appendLines v batch).HOffset = v.HOffset) ∧
    (¬(v.Follow = true ∧ (v.Lines.length : Int) - 1 ≤ v.Cursor) →
      appendLines v batch = { v with Lines := v.Lines ++ batch }) := by
  have hlen : ¬ batch.length = 0 := by
    intro h
    exact hb (List.length_eq_zero.mp h)
  by_cases hf : v.Follow = true ∧ (v.Lines.length : Int) - 1 ≤ v.Cursor
  · have happ : appendLines v batch =
        { v with
          Lines := v.Lines ++ batch
          Cursor := ((v.Lines ++ batch).length : Int) - 1
          CursorCol := 0
          GoalCol := 0 } := by
      unfold appendLines
      rw [if_neg hlen]
      dsimp only
      rw [if_pos (by simp [hf.1, hf.2])]
    rw [happ]
    refine ⟨rfl, fun _ => ⟨by simp, rfl, rfl, rfl, rfl, rfl⟩, fun hn => absurd hf hn⟩
  · have happ : appendLines v batch = { v with Lines := v.Lines ++ batch } := by
      unfold appendLines
      rw [if_neg hlen]
      dsimp only
      rw [if_neg (by
        intro hc
        rw [Bool.and_eq_true] at hc
        exact hf ⟨hc.1, of_decide_eq_true hc.2⟩)]
    rw [happ]
    exact ⟨rfl, fun h => absurd h hf, fun _ => rfl⟩

/-- Witness for `appendLines_spec`: in follow mode with the cursor on the last
line, appending one line advances the cursor; the line store grows in order. -/
theorem appendLines_spec_witness :
    ([str "b"] : List Str) ≠ [] ∧
    (appendLines (initViewer [str "a"] [] false false false true)
        [str "b"]).Lines = [str "a"] ++ [str "b"] ∧
    (appendLines (initViewer [str "a"] [] false false false true)
        [str "b"]).Cursor = ((1 + 1 : Nat) : Int) - 1 := by
  have h := appendLines_spec (initViewer [str "a"] [] false false false true)
    [str "b"] (by simp)
  exact ⟨by simp, h.1, (h.2.1 ⟨rfl, by decide⟩).1⟩

/-! ### Scanning and clamping lemmas for the word motions -/

theorem runLen_stop (p : Char → Bool) (line : Str) (pos : Nat)
    (h : line.length ≤ pos ∨ p (chAt line pos) = false) :
    runLen p line pos = 0 := by
  unfold runLen
  cases hd : line.drop pos with
  | nil => rfl
  | cons c t =>
    rcases h with h | h
    · rw [List.drop_eq_nil_of_le h] at hd
      simp at hd
    · have hc : chAt line pos = c := by
        have h0 : (line.drop pos).getD 0 (Char.ofNat 0) = c := by rw [hd]; rfl
        rw [List.getD_eq_getElem?_getD, List.getElem?_drop] at h0
        unfold chAt
        rw [List.getD_eq_getElem?_getD]
        simpa using h0
      rw [runLenAux, if_neg]
      rw [hc] at h
      simp [h]

theorem runLen_step (p : Char → Bool) (line : Str) (pos : Nat)
    (hpos : pos < line.length) (h : p (chAt line pos) = true) :
    runLen p line pos = runLen p line (pos + 1) + 1 := by
  have hd : line.drop pos = chAt line pos :: line.drop (pos + 1) := by
    have h1 := List.drop_eq_getElem_cons hpos
    rw [h1]
    congr 1
    unfold chAt
    rw [List.getD_eq_getElem?_getD, List.getElem?_eq_getElem hpos]
    rfl
  unfold runLen
  rw [hd, runLenAux, if_pos h]

theorem runLen_all (p : Char → Bool) (line : Str) :
    ∀ (n pos : Nat), line.length - pos = n →
    (∀ j, pos ≤ j → j < line.length → p (chAt line j) = true) →
    runLen p line pos = line.length - pos := by
  intro n
  induction n with
  | zero =>
    intro pos hn _
    rw [runLen_stop p line pos (Or.inl (by omega)), hn]
  | succ n ih =>
    intro pos hn h
    have hpos : pos < line.length := by omega
    rw [runLen_step p line pos hpos (h pos le_rfl hpos),
      ih (pos + 1) (by omega) (fun j hj hj2 => h j (by omega) hj2)]
    omega

theorem lineRuneCount_nonneg (v : Viewer) (idx : Int) : 0 ≤ lineRuneCount v idx := by
  unfold lineRuneCount
  split <;> simp

theorem lineRuneCount_in_range (v : Viewer) (idx : Int) (h1 : 0 ≤ idx)
    (h2 : idx < (v.Lines.length : Int)) :
    lineRuneCount v idx = ((v.Lines.getD idx.toNat []).length : Int) := by
  unfold lineRuneCount
  rw [if_neg]
  simp only [Bool.or_eq_true, decide_eq_true_eq, not_or]
  omega

/-- `clampCursor` is the identity on states already satisfying the cursor
invariant. -/
theorem clampCursor_of_valid (v : Viewer)
    (h1 : 0 ≤ v.Cursor) (h2 : v.Cursor < (v.Lines.length : Int))
    (h3 : 0 ≤ v.CursorCol)
    (h4 : v.CursorCol ≤ max 0 (lineRuneCount v v.Cursor - 1)) :
    clampCursor v = v := by
  unfold clampCursor
  simp only [if_neg (not_lt.mpr h1), if_neg (not_le.mpr h2),
    if_neg (by omega : ¬ v.Lines.length = 0)]
  have hmax : 0 ≤ lineRuneCount v v.Cursor := lineRuneCount_nonneg v v.Cursor
  have hcol : ¬ ((if 0 < lineRuneCount { v with Cursor := v.Cursor } v.Cursor then
      lineRuneCount { v with Cursor := v.Cursor } v.Cursor - 1 else
      lineRuneCount { v with Cursor := v.Cursor } v.Cursor) <
        (if v.CursorCol < 0 then 0 else v.CursorCol)) := by
    have hv : ({ v with Cursor := v.Cursor } : Viewer) = v := rfl
    rw [hv, if_neg (not_lt.mpr h3)]
    rcases max_cases 0 (lineRuneCount v v.Cursor - 1) with ⟨he, hge⟩ | ⟨he, hge⟩ <;>
      rw [he] at h4 <;> omega
  rw [if_neg (not_lt.mpr h3), if_neg (by
    rw [if_neg (not_lt.mpr h3)] at hcol
    exact hcol)]

/-! ### C6: word-forward at the end of the document (corrected) -/

/-- Counterexample to C6 as stated: on the single line "ab!" with the cursor
on 'b' — the last word-constituent rune of the last line — `moveWordForward`
moves the cursor column (to the trailing '!'), so the motion is not a no-op. -/
theorem moveWordForward_counterexample :
    (let v : Viewer :=
      { initViewer [str "ab!"] [] false false false false with CursorCol := 1 };
     isWordRune (chAt (str "ab!") 1) = true ∧
     (∀ j < (str "ab!").length, 1 < j → isWordRune (chAt (str "ab!") j) = false) ∧
     v.Cursor = (v.Lines.length : Int) - 1 ∧
     ¬((moveWordForward v).Cursor = v.Cursor ∧
       (moveWordForward v).CursorCol = v.CursorCol)) := by
  decide

/-- C6 amended: from the last word-constituent rune of the last line,
`moveWordForward` clamps instead of wrapping: it stays on the last line and
moves the column to the line's final rune index (`runeLen - 1`) — a position
no-op exactly when that word rune already is the line's final rune. -/
theorem moveWordForward_last_word_rune (v : Viewer)
    (hlen : v.Lines.length ≠ 0)
    (hcur : v.Cursor = (v.Lines.length : Int) - 1)
    (hcol0 : 0 ≤ v.CursorCol)
    (hcol : v.CursorCol < ((v.Lines.getD (v.Lines.length - 1) []).length : Int))
    (hword : isWordRune
      (chAt (v.Lines.getD (v.Lines.length - 1) []) v.CursorCol.toNat) = true)
    (hlast : ∀ j, v.CursorCol.toNat < j →
      j < (v.Lines.getD (v.Lines.length - 1) []).length →
      isWordRune (chAt (v.Lines.getD (v.Lines.length - 1) []) j) = false) :
    (moveWordForward v).Cursor = v.Cursor ∧
    (moveWordForward v).CursorCol =
      ((v.Lines.getD (v.Lines.length - 1) []).length : Int) - 1 := by
  have hc : v.Cursor.toNat = v.Lines.length - 1 := by omega
  set line := v.Lines.getD (v.Lines.length - 1) [] with hline
  have hlpos : 0 < line.length := by omega
  unfold moveWordForward
  rw [if_neg hlen, hc, mwfLoop]
  rw [← hline, if_neg (by omega : ¬ line.length = 0)]
  dsimp only
  rw [if_neg (not_lt.mpr hcol0), if_neg (not_le.mpr hcol)]
  have h1 : runLen isWordRune line v.CursorCol.toNat = 1 := by
    rw [runLen_step _ _ _ (by omega) hword,
      runLen_stop _ _ _ (by
        by_cases hp : v.CursorCol.toNat + 1 < line.length
        · exact Or.inr (hlast _ (by omega) hp)
        · exact Or.inl (by omega))]
  rw [if_pos hword, h1]
  have h2 : runLen (fun c => !isWordRune c) line (v.CursorCol.toNat + 1) =
      line.length - (v.CursorCol.toNat + 1) :=
    runLen_all _ _ _ _ rfl (fun j hj hj2 => by
      rw [Bool.not_eq_true']
      exact hlast j (by omega) hj2)
  rw [h2]
  rw [if_neg (by omega : ¬ v.CursorCol.toNat + 1 + (line.length - (v.CursorCol.toNat + 1)) < line.length)]
  rw [if_pos (by omega : v.Lines.length ≤ v.Lines.length - 1 + 1)]
  have hval : clampCursor
      { v with
        Cursor := ((v.Lines.length - 1 : Nat) : Int)
        CursorCol := (line.length : Int) - 1 } =
      { v with
        Cursor := ((v.Lines.length - 1 : Nat) : Int)
        CursorCol := (line.length : Int) - 1 } := by
    apply clampCursor_of_valid
    · simp
    · simp
      omega
    · simp
      omega
    · have hrc : lineRuneCount
          { v with
            Cursor := ((v.Lines.length - 1 : Nat) : Int)
            CursorCol := (line.length : Int) - 1 }
          ((v.Lines.length - 1 : Nat) : Int) = (line.length : Int) := by
        rw [lineRuneCount_in_range _ _ (by simp) (by simp; omega)]
        simp [hline]
      simp only [hrc]
      simp
  rw [hval]
  constructor
  · simp
    omega
  · rfl

/-- Witness for `moveWordForward_last_word_rune` on the line "ab!" with the
cursor on 'b': the column moves to the final rune index 2. -/
theorem moveWordForward_last_word_rune_witness :
    (moveWordForward
        { initViewer [str "ab!"] [] false false false false with
          CursorCol := 1 }).Cursor =
      ({ initViewer [str "ab!"] [] false false false false with
          CursorCol := 1 } : Viewer).Cursor ∧
    (moveWordForward
        { initViewer [str "ab!"] [] false false false false with
          CursorCol := 1 }).CursorCol =
      ((({ initViewer [str "ab!"] [] false false false false with
          CursorCol := 1 } : Viewer).Lines.getD
          (({ initViewer [str "ab!"] [] false false false false with
            CursorCol := 1 } : Viewer).Lines.length - 1) []).length : Int) - 1 := by
  refine moveWordForward_last_word_rune _ (by decide) (by decide) (by decide)
    (by decide) (by decide) ?_
  intro j h1 h2
  have h1' : 1 < j := h1
  have h2' : j < 3 := h2
  have hj : j = 2 := by omega
  subst hj
  decide

/-! ### Search: first-occurrence characterization -/

/-- Claim-side: the needle occurs in the haystack at index `i`. -/
def occursAt (hay needle : Str) (i : Nat) : Prop :=
  needle.isPrefixOf (hay.drop i) = true

/-- `strIndexGo` finds the first occurrence (offset by `i`) or reports -1 when
there is none. -/
theorem strIndexGo_spec (needle : Str) : ∀ (hay : Str) (i : Nat),
    (strIndexGo needle hay i = -1 ∧ ∀ j, ¬ occursAt hay needle j) ∨
    (∃ k, strIndexGo needle hay i = ((i + k : Nat) : Int) ∧
      occursAt hay needle k ∧ ∀ j < k, ¬ occursAt hay needle j) := by
  intro hay
  induction hay with
  | nil =>
    intro i
    by_cases hp : needle.isPrefixOf [] = true
    · right
      exact ⟨0, by rw [strIndexGo, if_pos hp]; simp, hp, by omega⟩
    · left
      exact ⟨by rw [strIndexGo, if_neg hp], fun j h => by cases j <;> exact hp h⟩
  | cons c t ih =>
    intro i
    by_cases hp : needle.isPrefixOf (c :: t) = true
    · right
      exact ⟨0, by rw [strIndexGo, if_pos hp]; simp, by simpa [occursAt] using hp,
        by omega⟩
    · rw [strIndexGo, if_neg hp]
      rcases ih (i + 1) with ⟨h1, h2⟩ | ⟨k, h1, h2, h3⟩
      · left
        refine ⟨h1, fun j => ?_⟩
        match j with
        | 0 => simpa [occursAt] using hp
        | j + 1 => simpa [occursAt] using h2 j
      · right
        refine ⟨k + 1, by rw [h1]; congr 1; omega, by simpa [occursAt] using h2,
          fun j hj => ?_⟩
        match j with
        | 0 => simpa [occursAt] using hp
        | j + 1 => simpa [occursAt] using h3 j (by omega)

/-- A non-empty needle can only occur strictly inside the haystack. -/
theorem occursAt_lt_length (hay needle : Str) (k : Nat)
    (h : occursAt hay needle k) (hne : needle ≠ []) : k < hay.length := by
  by_contra hk
  unfold occursAt at h
  rw [List.drop_eq_nil_of_le (by omega)] at h
  rcases needle with _ | ⟨c, t⟩
  · exact hne rfl
  · simp [List.isPrefixOf] at h

/-- `matchColForLine` returns the rune column of the first case-insensitive
occurrence of the query, or 0 when the query does not occur. -/
theorem matchColForLine_spec (v : Viewer) (lineIdx : Int)
    (h1 : 0 ≤ lineIdx) (h2 : lineIdx < (v.Lines.length : Int)) (hq : v.Query ≠ []) :
    (∃ k : Nat, matchColForLine v lineIdx = (k : Int) ∧
      occursAt (toLowerStr (v.Lines.getD lineIdx.toNat []))
        (toLowerStr v.Query) k ∧
      ∀ j < k, ¬ occursAt (toLowerStr (v.Lines.getD lineIdx.toNat []))
        (toLowerStr v.Query) j) ∨
    (matchColForLine v lineIdx = 0 ∧
      ∀ j, ¬ occursAt (toLowerStr (v.Lines.getD lineIdx.toNat []))
        (toLowerStr v.Query) j) := by
  have hg : ¬ (lineIdx < 0 || (v.Lines.length : Int) ≤ lineIdx) = true := by
    simp only [Bool.or_eq_true, decide_eq_true_eq, not_or]
    omega
  unfold matchColForLine
  rw [if_neg hg, if_neg hq]
  set line := v.Lines.getD lineIdx.toNat [] with hline
  rcases strIndexGo_spec (toLowerStr v.Query) (toLowerStr line) 0 with
    ⟨ha, hb⟩ | ⟨k, ha, hb, hc⟩
  · right
    refine ⟨?_, hb⟩
    unfold strIndex
    simp [ha]
  · left
    have hkl : k < line.length := by
      have := occursAt_lt_length _ _ _ hb (by
        intro he
        exact hq (List.map_eq_nil_iff.mp he))
      simpa [toLowerStr] using this
    refine ⟨k, ?_, hb, hc⟩
    unfold strIndex
    have hz : (0 + k : Nat) = k := by omega
    rw [hz] at ha
    simp only [ha]
    rw [if_neg (by omega : ¬ ((k : Nat) : Int) = -1)]
    simp only [Int.toNat_natCast, List.length_take]
    rw [min_eq_left (Nat.le_of_lt hkl)]

/-! ### C5: match cycling -/

/-- C5: with an empty match list, `nextMatch` only sets the status
"no matches" (no cursor or match state changes); with a non-empty match list
and `dir = ±1`, it advances the match index cyclically by `dir` (wrapping past
either end, i.e. modular arithmetic) and moves the cursor to the selected
match's line and to the starting column of the first case-insensitive
occurrence of the query there (or column 0 when the query does not occur). -/
theorem nextMatch_spec (v : Viewer) (dir : Int) (hdir : dir = 1 ∨ dir = -1) :
    (v.Matches = [] → nextMatch v dir = { v with Status := str "no matches" }) ∧
    (0 ≤ v.MatchIndex → v.MatchIndex < (v.Matches.length : Int) →
      (∀ m ∈ v.Matches, m < v.Lines.length) →
      (nextMatch v dir).MatchIndex =
        (v.MatchIndex + dir) % (v.Matches.length : Int) ∧
      (nextMatch v dir).Cursor =
        ((v.Matches.getD
          ((v.MatchIndex + dir) % (v.Matches.length : Int)).toNat 0 : Nat) : Int) ∧
      (nextMatch v dir).GoalCol = (nextMatch v dir).CursorCol ∧
      (nextMatch v dir).Status = [] ∧
      (nextMatch v dir).Lines = v.Lines ∧
      (nextMatch v dir).Matches = v.Matches ∧
      (nextMatch v dir).Query = v.Query ∧
      (v.Query ≠ [] →
        (∃ k : Nat, (nextMatch v dir).CursorCol = (k : Int) ∧
          occursAt
            (toLowerStr (v.Lines.getD (nextMatch v dir).Cursor.toNat []))
            (toLowerStr v.Query) k ∧
          ∀ j < k, ¬ occursAt
            (toLowerStr (v.Lines.getD (nextMatch v dir).Cursor.toNat []))
            (toLowerStr v.Query) j) ∨
        ((nextMatch v dir).CursorCol = 0 ∧
          ∀ j, ¬ occursAt
            (toLowerStr (v.Lines.getD (nextMatch v dir).Cursor.toNat []))
            (toLowerStr v.Query) j))) := by
  constructor
  · intro he
    unfold nextMatch
    rw [if_pos he]
  · intro hmi hmi2 hmv
    have hlen : 0 < v.Matches.length := by omega
    have hne : v.Matches ≠ [] := List.ne_nil_of_length_pos hlen
    have harith : (if (v.Matches.length : Int) ≤
        (if v.MatchIndex + dir < 0 then (v.Matches.length : Int) - 1
         else v.MatchIndex + dir) then 0
        else (if v.MatchIndex + dir < 0 then (v.Matches.length : Int) - 1
         else v.MatchIndex + dir)) =
        (v.MatchIndex + dir) % (v.Matches.length : Int) := by
      have hlenpos : (0 : Int) < (v.Matches.length : Int) := by omega
      by_cases hneg : v.MatchIndex + dir < 0
      · rw [if_pos hneg,
          if_neg (by omega :
            ¬ (v.Matches.length : Int) ≤ (v.Matches.length : Int) - 1)]
        have hd : dir = -1 := by rcases hdir with h | h <;> omega
        have hmi0 : v.MatchIndex = 0 := by
          rcases hdir with h | h <;> omega
        rw [hmi0, hd, zero_add]
        have h1 : (-1 : Int) % (v.Matches.length : Int) =
            ((v.Matches.length : Int) - 1) % (v.Matches.length : Int) := by
          conv_rhs => rw [show (v.Matches.length : Int) - 1 =
            -1 + (v.Matches.length : Int) * 1 by ring]
          rw [Int.add_mul_emod_self_left]
        rw [h1, Int.emod_eq_of_lt (by omega) (by omega)]
      · rw [if_neg hneg]
        by_cases hge : (v.Matches.length : Int) ≤ v.MatchIndex + dir
        · rw [if_pos hge]
          have heq : v.MatchIndex + dir = (v.Matches.length : Int) := by
            rcases hdir with h | h <;> omega
          rw [heq, Int.emod_self]
        · rw [if_neg hge, Int.emod_eq_of_lt (by omega) (by omega)]
    have hstep : nextMatch v dir =
        { v with
          MatchIndex := (v.MatchIndex + dir) % (v.Matches.length : Int)
          Cursor := ((v.Matches.getD
            ((v.MatchIndex + dir) % (v.Matches.length : Int)).toNat 0 : Nat) : Int)
          CursorCol := matchColForLine v ((v.Matches.getD
            ((v.MatchIndex + dir) % (v.Matches.length : Int)).toNat 0 : Nat) : Int)
          GoalCol := matchColForLine v ((v.Matches.getD
            ((v.MatchIndex + dir) % (v.Matches.length : Int)).toNat 0 : Nat) : Int)
          Status := [] } := by
      unfold nextMatch
      rw [if_neg hne]
      dsimp only
      rw [harith]
    have hcur0 : 0 ≤ (v.MatchIndex + dir) % (v.Matches.length : Int) :=
      Int.emod_nonneg _ (by omega)
    have hcurlt : (v.MatchIndex + dir) % (v.Matches.length : Int) <
        (v.Matches.length : Int) := Int.emod_lt_of_pos _ (by exact_mod_cast hlen)
    have hmem : v.Matches.getD
        ((v.MatchIndex + dir) % (v.Matches.length : Int)).toNat 0 ∈ v.Matches := by
      have hlt : ((v.MatchIndex + dir) % (v.Matches.length : Int)).toNat <
          v.Matches.length := by omega
      rw [List.getD_eq_getElem _ _ hlt]
      exact List.getElem_mem hlt
    rw [hstep]
    refine ⟨rfl, rfl, rfl, rfl, rfl, rfl, rfl, ?_⟩
    intro hq
    have hspec := matchColForLine_spec v ((v.Matches.getD
      ((v.MatchIndex + dir) % (v.Matches.length : Int)).toNat 0 : Nat) : Int)
      (by positivity) (by exact_mod_cast hmv _ hmem) hq
    simpa using hspec

/-- The spec's match-cycling example: match list [2,5,9], current match
value 9 (index 2). -/
def v5ex : Viewer :=
  { initViewer [[], [], str "x", [], [], str "x", [], [], [], str "x"]
      [] false false false false with
    Query := str "x", Matches := [2, 5, 9], MatchIndex := 2 }

/-- Witness for `nextMatch_spec`: from match value 9, `nextMatch(+1)` wraps to
match value 2 (index 0). -/
theorem nextMatch_spec_witness :
    ((1 : Int) = 1 ∨ (1 : Int) = -1) ∧
    v5ex.Matches.getD 2 0 = 9 ∧
    (nextMatch v5ex 1).MatchIndex = 0 ∧
    (nextMatch v5ex 1).Cursor = 2 := by
  have h := nextMatch_spec v5ex 1 (Or.inl rfl)
  have h2 := h.2 (by decide) (by decide) (by decide)
  exact ⟨Or.inl rfl, by decide, h2.1.trans (by decide), h2.2.1.trans (by decide)⟩

/-! ### C4 groundwork: search scan and nearest-match selection -/

theorem filterMap_guard_eq_filter (p : Nat → Bool) (l : List Nat) :
    l.filterMap (fun i => if p i then some i else none) = l.filter p := by
  induction l with
  | nil => rfl
  | cons a t ih => by_cases hp : p a <;> simp [List.filterMap_cons, hp, ih]

theorem findIdx?_first (p : Nat → Bool) (l : List Nat) :
    (l.findIdx? p = none ∧ ∀ a ∈ l, p a = false) ∨
    (∃ i, l.findIdx? p = some i ∧ i < l.length ∧ p (l.getD i 0) = true ∧
      ∀ j < i, p (l.getD j 0) = false) := by
  induction l with
  | nil => left; simp
  | cons a t ih =>
    by_cases hp : p a = true
    · right
      exact ⟨0, by simp [List.findIdx?_cons, hp], by simp, by simpa using hp,
        by omega⟩
    · rcases ih with ⟨h1, h2⟩ | ⟨i, h1, h2, h3, h4⟩
      · left
        refine ⟨by simp [List.findIdx?_cons, hp, h1], fun b hb => ?_⟩
        rcases List.mem_cons.mp hb with h | h
        · subst h; simpa using hp
        · exact h2 b h
      · right
        refine ⟨i + 1, by simp [List.findIdx?_cons, hp, h1], by simpa using h2,
          by simpa using h3, fun j hj => ?_⟩
        match j with
        | 0 => simpa using hp
        | j + 1 => simpa using h4 j (by omega)

theorem revRangeFind_last (p : Nat → Bool) (n : Nat) :
    ((List.range n).reverse.find? p = none ∧ ∀ i < n, p i = false) ∨
    (∃ i, (List.range n).reverse.find? p = some i ∧ i < n ∧ p i = true ∧
      ∀ j, i < j → j < n → p j = false) := by
  induction n with
  | zero => left; simp
  | succ n ih =>
    have hrev : (List.range (n + 1)).reverse = n :: (List.range n).reverse := by
      rw [List.range_succ, List.reverse_append]
      rfl
    by_cases hp : p n = true
    · right
      exact ⟨n, by rw [hrev, List.find?_cons, hp], by omega, hp, by omega⟩
    · rcases ih with ⟨h1, h2⟩ | ⟨i, h1, h2, h3, h4⟩
      · left
        refine ⟨?_, fun i hi => ?_⟩
        · rw [hrev, List.find?_cons]
          simp only [Bool.not_eq_true] at hp
          rw [hp]
          exact h1
        · by_cases hin : i = n
          · subst hin; simpa using hp
          · exact h2 i (by omega)
      · right
        refine ⟨i, ?_, by omega, h3, fun j hj hj2 => ?_⟩
        · rw [hrev, List.find?_cons]
          simp only [Bool.not_eq_true] at hp
          rw [hp]
          exact h1
        · by_cases hjn : j = n
          · subst hjn; simpa using hp
          · exact h4 j hj (by omega)

/-- Values at indices of an ascending list are monotone. -/
theorem pairwise_lt_getD_mono (l : List Nat) (h : l.Pairwise (· < ·))
    (i j : Nat) (hij : i ≤ j) (hj : j < l.length) :
    l.getD i 0 ≤ l.getD j 0 := by
  rcases Nat.eq_or_lt_of_le hij with he | hlt
  · subst he; exact le_refl _
  · have := List.pairwise_iff_getElem.mp h i j (by omega) hj hlt
    rw [List.getD_eq_getElem _ _ (by omega : i < l.length),
      List.getD_eq_getElem _ _ hj]
    omega

/-- `closestMatchIndex` selects the nearest match to the cursor in the
requested direction, wrapping to the first/last match if none qualifies. -/
theorem closestMatchIndex_spec (v : Viewer) (dir : Int)
    (hne : v.Matches ≠ []) (hsort : v.Matches.Pairwise (· < ·)) :
    closestMatchIndex v dir < v.Matches.length ∧
    (0 ≤ dir →
      ((∃ m ∈ v.Matches, v.Cursor ≤ (m : Int)) →
        v.Cursor ≤ ((v.Matches.getD (closestMatchIndex v dir) 0 : Nat) : Int) ∧
        ∀ m ∈ v.Matches, v.Cursor ≤ (m : Int) →
          v.Matches.getD (closestMatchIndex v dir) 0 ≤ m) ∧
      ((∀ m ∈ v.Matches, (m : Int) < v.Cursor) →
        closestMatchIndex v dir = 0)) ∧
    (dir < 0 →
      ((∃ m ∈ v.Matches, (m : Int) ≤ v.Cursor) →
        ((v.Matches.getD (closestMatchIndex v dir) 0 : Nat) : Int) ≤ v.Cursor ∧
        ∀ m ∈ v.Matches, (m : Int) ≤ v.Cursor →
          m ≤ v.Matches.getD (closestMatchIndex v dir) 0) ∧
      ((∀ m ∈ v.Matches, v.Cursor < (m : Int)) →
        closestMatchIndex v dir = v.Matches.length - 1)) := by
  have hlen : 0 < v.Matches.length := List.length_pos.mpr hne
  by_cases hd : 0 ≤ dir
  · have hcmi : closestMatchIndex v dir =
        match v.Matches.findIdx? (fun (line : Nat) => v.Cursor ≤ (line : Int)) with
        | some i => i
        | none => 0 := by
      unfold closestMatchIndex
      rw [if_neg hne, if_pos hd]
    rcases findIdx?_first (fun line => decide (v.Cursor ≤ (line : Int)))
        v.Matches with ⟨h1, h2⟩ | ⟨i, h1, h2, h3, h4⟩
    · have hres : closestMatchIndex v dir = 0 := by rw [hcmi, h1]
      rw [hres]
      refine ⟨hlen, fun _ => ⟨?_, fun _ => rfl⟩, fun hneg => absurd hd (by omega)⟩
      rintro ⟨m, hm, hcm⟩
      have := h2 m hm
      simp only [decide_eq_false_iff_not, not_le] at this
      omega
    · have hres : closestMatchIndex v dir = i := by rw [hcmi, h1]
      rw [hres]
      have hp : v.Cursor ≤ ((v.Matches.getD i 0 : Nat) : Int) := by
        have := h3
        simp only [decide_eq_true_eq] at this
        exact this
      refine ⟨h2, fun _ => ⟨fun _ => ⟨hp, fun m hm hcm => ?_⟩, fun hall => ?_⟩,
        fun hneg => absurd hd (by omega)⟩
      · obtain ⟨j, hj, hjm⟩ := List.mem_iff_getElem.mp hm
        by_cases hij : j < i
        · have := h4 j hij
          simp only [decide_eq_false_iff_not, not_le] at this
          rw [List.getD_eq_getElem _ _ hj] at this
          omega
        · have hmono := pairwise_lt_getD_mono v.Matches hsort i j (by omega) hj
          rw [List.getD_eq_getElem _ _ hj] at hmono
          omega
      · have hmem : v.Matches.getD i 0 ∈ v.Matches := by
          rw [List.getD_eq_getElem _ _ h2]
          exact List.getElem_mem h2
        have := hall _ hmem
        omega
  · have hcmi : closestMatchIndex v dir =
        match (List.range v.Matches.length).reverse.find?
            (fun i => ((v.Matches.getD i 0 : Nat) : Int) ≤ v.Cursor) with
        | some i => i
        | none => v.Matches.length - 1 := by
      unfold closestMatchIndex
      rw [if_neg hne, if_neg hd]
    rcases revRangeFind_last
        (fun i => decide (((v.Matches.getD i 0 : Nat) : Int) ≤ v.Cursor))
        v.Matches.length with ⟨h1, h2⟩ | ⟨i, h1, h2, h3, h4⟩
    · have hres : closestMatchIndex v dir = v.Matches.length - 1 := by
        rw [hcmi, h1]
      rw [hres]
      refine ⟨by omega, fun hd2 => absurd hd2 hd, fun _ => ⟨?_, fun _ => rfl⟩⟩
      rintro ⟨m, hm, hcm⟩
      obtain ⟨j, hj, hjm⟩ := List.mem_iff_getElem.mp hm
      have := h2 j hj
      simp only [decide_eq_false_iff_not, not_le] at this
      rw [List.getD_eq_getElem _ _ hj] at this
      omega
    · have hres : closestMatchIndex v dir = i := by rw [hcmi, h1]
      rw [hres]
      have hp : ((v.Matches.getD i 0 : Nat) : Int) ≤ v.Cursor := by
        have := h3
        simp only [decide_eq_true_eq] at this
        exact this
      refine ⟨h2, fun hd2 => absurd hd2 hd,
        fun _ => ⟨fun _ => ⟨hp, fun m hm hcm => ?_⟩, fun hall => ?_⟩⟩
      · obtain ⟨j, hj, hjm⟩ := List.mem_iff_getElem.mp hm
        by_cases hij : i < j
        · have := h4 j hij hj
          simp only [decide_eq_false_iff_not, not_le] at this
          rw [List.getD_eq_getElem _ _ hj] at this
          omega
        · have hmono := pairwise_lt_getD_mono v.Matches hsort j i (by omega) h2
          rw [List.getD_eq_getElem _ _ hj] at hmono
          omega
      · have hmem : v.Matches.getD i 0 ∈ v.Matches := by
          rw [List.getD_eq_getElem _ _ h2]
          exact List.getElem_mem h2
        have := hall _ hmem
        omega

/-! ### C4: setQuery (corrected: the query is whitespace-trimmed first) -/

/-- Counterexample to C4 as stated: the non-empty query " a " does not occur
in the line "xa" (even case-insensitively), so the claim demands an empty
match list, the status "no matches" and an unchanged cursor; but `setQuery`
trims the query to "a", records match list [0] and moves the cursor. -/
theorem setQuery_counterexample :
    (str " a " ≠ []) ∧
    containsStr (toLowerStr (str "xa")) (toLowerStr (str " a ")) = false ∧
    (setQuery (initViewer [str "xa"] [] false false false false)
      (str " a ") 1).Matches = [0] ∧
    ¬((setQuery (initViewer [str "xa"] [] false false false false)
        (str " a ") 1).CursorCol =
      (initViewer [str "xa"] [] false false false false).CursorCol) := by
  refine ⟨by decide, by decide, by decide, by decide⟩

/-- C4 amended: `setQuery(query, dir)` first whitespace-trims the query; for
every query whose trimmed form is non-empty it records the strictly ascending
list of indices of lines containing the trimmed query as a case-insensitive
substring, selects the nearest match to the cursor in the requested direction
(wrapping to the first/last match when none qualifies), and moves the cursor
to that match's line and the starting column of the first case-insensitive
occurrence there; an empty result sets the status "no matches" and leaves the
cursor unchanged.  (A whitespace-only query resets the search state without
touching cursor or status.) -/
theorem setQuery_spec (v : Viewer) (query : Str) (dir : Int) (v' : Viewer)
    (hv : v' = setQuery v query dir) :
    v'.Query = trimSpace query ∧
    (trimSpace query = [] →
      v' = { v with Query := [], Matches := [], MatchIndex := 0 }) ∧
    (trimSpace query ≠ [] →
      (∀ i : Nat, i ∈ v'.Matches ↔
        (i < v.Lines.length ∧
          containsStr (toLowerStr (v.Lines.getD i []))
            (toLowerStr (trimSpace query)) = true)) ∧
      v'.Matches.Pairwise (· < ·) ∧
      (v'.Matches = [] →
        v'.Status = str "no matches" ∧ v'.Cursor = v.Cursor ∧
        v'.CursorCol = v.CursorCol ∧ v'.GoalCol = v.GoalCol) ∧
      (v'.Matches ≠ [] →
        ∃ mi : Nat, mi < v'.Matches.length ∧
          v'.MatchIndex = (mi : Int) ∧
          v'.Cursor = ((v'.Matches.getD mi 0 : Nat) : Int) ∧
          v'.Status = [] ∧ v'.GoalCol = v'.CursorCol ∧
          (0 ≤ dir →
            ((∃ m ∈ v'.Matches, v.Cursor ≤ (m : Int)) →
              v.Cursor ≤ ((v'.Matches.getD mi 0 : Nat) : Int) ∧
              ∀ m ∈ v'.Matches, v.Cursor ≤ (m : Int) →
                v'.Matches.getD mi 0 ≤ m) ∧
            ((∀ m ∈ v'.Matches, (m : Int) < v.Cursor) → mi = 0)) ∧
          (dir < 0 →
            ((∃ m ∈ v'.Matches, (m : Int) ≤ v.Cursor) →
              ((v'.Matches.getD mi 0 : Nat) : Int) ≤ v.Cursor ∧
              ∀ m ∈ v'.Matches, (m : Int) ≤ v.Cursor →
                m ≤ v'.Matches.getD mi 0) ∧
            ((∀ m ∈ v'.Matches, v.Cursor < (m : Int)) →
              mi = v'.Matches.length - 1)) ∧
          ((∃ k : Nat, v'.CursorCol = (k : Int) ∧
              occursAt (toLowerStr (v.Lines.getD v'.Cursor.toNat []))
                (toLowerStr (trimSpace query)) k ∧
              ∀ j < k, ¬ occursAt (toLowerStr (v.Lines.getD v'.Cursor.toNat []))
                (toLowerStr (trimSpace query)) j) ∨
            (v'.CursorCol = 0 ∧
              ∀ j, ¬ occursAt (toLowerStr (v.Lines.getD v'.Cursor.toNat []))
                (toLowerStr (trimSpace query)) j)))) := by
  by_cases hq : trimSpace query = []
  · have hstep : setQuery v query dir =
        { v with Query := trimSpace query, Matches := [], MatchIndex := 0 } := by
      unfold setQuery
      dsimp only
      rw [if_pos hq]
    subst hv
    rw [hstep]
    exact ⟨rfl, fun _ => by rw [hq], fun hne => absurd hq hne⟩
  · set p : Nat → Bool := fun i =>
      containsStr (toLowerStr (v.Lines.getD i [])) (toLowerStr (trimSpace query))
      with hp
    set ms : List Nat := (List.range v.Lines.length).filter p with hms
    have hmsfm : (List.range v.Lines.length).filterMap
        (fun i => if p i then some i else none) = ms :=
      filterMap_guard_eq_filter p (List.range v.Lines.length)
    have hsort : ms.Pairwise (· < ·) :=
      List.Pairwise.sublist (List.filter_sublist (List.range v.Lines.length))
        (List.pairwise_lt_range v.Lines.length)
    have hmem : ∀ i : Nat, i ∈ ms ↔ (i < v.Lines.length ∧ p i = true) := by
      intro i
      rw [hms, List.mem_filter, List.mem_range]
    set vMid : Viewer :=
      { v with Query := trimSpace query, Matches := ms, MatchIndex := 0 }
      with hvMid
    by_cases hempty : ms = []
    · have hstep : setQuery v query dir = { vMid with Status := str "no matches" } := by
        unfold setQuery
        dsimp only
        rw [if_neg hq, hmsfm, if_pos hempty]
      subst hv
      rw [hstep]
      refine ⟨rfl, fun h => absurd h hq, fun _ => ⟨?_, ?_, fun _ => ⟨rfl, rfl, rfl, rfl⟩,
        fun hne => absurd hempty hne⟩⟩
      · intro i
        rw [show ({ vMid with Status := str "no matches" } : Viewer).Matches = ms
          from rfl]
        rw [hmem i, hp]
      · exact hsort
    · have hstep : setQuery v query dir =
          { vMid with
            MatchIndex := (closestMatchIndex vMid dir : Int)
            Cursor := ((ms.getD (closestMatchIndex vMid dir) 0 : Nat) : Int)
            CursorCol := matchColForLine vMid
              ((ms.getD (closestMatchIndex vMid dir) 0 : Nat) : Int)
            GoalCol := matchColForLine vMid
              ((ms.getD (closestMatchIndex vMid dir) 0 : Nat) : Int)
            Status := [] } := by
        unfold setQuery
        dsimp only
        rw [if_neg hq, hmsfm, if_neg hempty]
      subst hv
      rw [hstep]
      have hcspec := closestMatchIndex_spec vMid dir hempty hsort
      have hcurmem : ms.getD (closestMatchIndex vMid dir) 0 ∈ ms := by
        rw [List.getD_eq_getElem _ _ hcspec.1]
        exact List.getElem_mem hcspec.1
      have hcurlt : ms.getD (closestMatchIndex vMid dir) 0 < v.Lines.length :=
        ((hmem _).mp hcurmem).1
      refine ⟨rfl, fun h => absurd h hq, fun _ => ⟨?_, hsort,
        fun h => absurd h hempty, fun _ => ?_⟩⟩
      · intro i
        rw [hmem i, hp]
      · refine ⟨closestMatchIndex vMid dir, hcspec.1, rfl, rfl, rfl, rfl,
          ?_, ?_, ?_⟩
        · exact hcspec.2.1
        · exact hcspec.2.2
        · have hmc := matchColForLine_spec vMid
            ((ms.getD (closestMatchIndex vMid dir) 0 : Nat) : Int)
            (by positivity) (by exact_mod_cast hcurlt) hq
          simpa using hmc

/-- The spec's search example state: lines ["a", "ERROR here", "b"]. -/
def v4ex : Viewer :=
  initViewer [str "a", str "ERROR here", str "b"] [] false false false false

/-- Witness for `setQuery_spec`: `setQuery("error", forward)` over
["a", "ERROR here", "b"] yields match list [1] and cursor at line 1,
column 0. -/
theorem setQuery_spec_witness :
    (setQuery v4ex (str "error") 1).Query = trimSpace (str "error") ∧
    (setQuery v4ex (str "error") 1).Matches = [1] ∧
    (setQuery v4ex (str "error") 1).Cursor = 1 ∧
    (setQuery v4ex (str "error") 1).CursorCol = 0 :=
  ⟨(setQuery_spec v4ex (str "error") 1 _ rfl).1, by decide, by decide, by decide⟩

/-! ### C1: the cursor invariant -/

/-- The claimed cursor bounds. -/
def CursorInv (v : Viewer) : Prop :=
  0 ≤ v.Cursor ∧ v.Cursor < (v.Lines.length : Int) ∧
  0 ≤ v.CursorCol ∧ v.CursorCol ≤ max 0 (lineRuneCount v v.Cursor - 1)

/-- Auxiliary invariant: recorded match lines stay within the line store
(lines are append-only). -/
def MatchesInv (v : Viewer) : Prop := ∀ m ∈ v.Matches, m < v.Lines.length

/-- The inductive invariant. -/
def Inv (v : Viewer) : Prop := CursorInv v ∧ MatchesInv v

theorem lineRuneCount_lines_only (v w : Viewer) (h : v.Lines = w.Lines)
    (idx : Int) : lineRuneCount v idx = lineRuneCount w idx := by
  unfold lineRuneCount
  rw [h]

/-- `clampCursor` establishes the cursor bounds on any state with a non-empty
line store. -/
theorem clampCursor_inv (v : Viewer) (h : v.Lines.length ≠ 0) :
    CursorInv (clampCursor v) := by
  unfold clampCursor CursorInv
  dsimp only
  rw [if_neg h]
  set c1 := if v.Cursor < 0 then 0 else v.Cursor with hc1
  set c2 := if (v.Lines.length : Int) ≤ c1 then (v.Lines.length : Int) - 1 else c1
    with hc2
  have hc2b : 0 ≤ c2 ∧ c2 < (v.Lines.length : Int) := by
    rw [hc2, hc1]
    split_ifs <;> omega
  set m := lineRuneCount { v with Cursor := c2 } c2 with hm
  have hm0 : 0 ≤ m := lineRuneCount_nonneg _ _
  have hmr : lineRuneCount
      { v with
        Cursor := c2
        CursorCol :=
          if (if 0 < m then m - 1 else m) < (if v.CursorCol < 0 then 0 else v.CursorCol)
          then (if 0 < m then m - 1 else m)
          else (if v.CursorCol < 0 then 0 else v.CursorCol) } c2 = m := by
    rw [hm]
    exact lineRuneCount_lines_only _ _ rfl c2
  refine ⟨hc2b.1, hc2b.2, ?_, ?_⟩
  · split_ifs <;> omega
  · rw [hmr, le_max_iff]
    split_ifs <;> omega

/-- `applyGoalCol` establishes the column bounds whenever the cursor line is
in range (cursor and lines are untouched). -/
theorem applyGoalCol_inv (v : Viewer) (h1 : 0 ≤ v.Cursor)
    (h2 : v.Cursor < (v.Lines.length : Int)) :
    CursorInv (applyGoalCol v) := by
  unfold applyGoalCol CursorInv
  dsimp only
  set g := if v.GoalCol < 0 then 0 else v.GoalCol with hg
  set m := lineRuneCount { v with GoalCol := g } v.Cursor with hm
  have hm0 : 0 ≤ m := lineRuneCount_nonneg _ _
  have hmr : lineRuneCount
      { v with
        GoalCol := g
        CursorCol :=
          if (if (if 0 < m then m - 1 else m) < g then (if 0 < m then m - 1 else m)
              else g) < 0 then 0
          else (if (if 0 < m then m - 1 else m) < g then (if 0 < m then m - 1 else m)
              else g) } v.Cursor = m := by
    rw [hm]
    exact lineRuneCount_lines_only _ _ rfl v.Cursor
  refine ⟨h1, h2, ?_, ?_⟩
  · split_ifs <;> omega
  · rw [hmr, le_max_iff]
    have hgnn : 0 ≤ g := by rw [hg]; split_ifs <;> omega
    split_ifs <;> omega

/-- Clamping any cursor update of an invariant-satisfying state yields an
invariant-satisfying state (`Lines` and `Matches` preserved by the update). -/
theorem inv_clamp_package (v w : Viewer) (hlines : w.Lines = v.Lines)
    (hmatches : w.Matches = v.Matches) (hv : Inv v) : Inv (clampCursor w) := by
  have hlen : w.Lines.length ≠ 0 := by
    rw [hlines]
    have h1 := hv.1.1
    have h2 := hv.1.2.1
    omega
  refine ⟨clampCursor_inv w hlen, ?_⟩
  intro m hm
  have hm2 : m ∈ v.Matches := by rwa [← hmatches]
  have := hv.2 m hm2
  calc m < v.Lines.length := this
  _ = w.Lines.length := by rw [hlines]

/-- Bounds on `matchColForLine`: the column is always within the target
line. -/
theorem matchColForLine_bound (v : Viewer) (lineIdx : Int) :
    0 ≤ matchColForLine v lineIdx ∧
    matchColForLine v lineIdx ≤ max 0 (lineRuneCount v lineIdx - 1) := by
  unfold matchColForLine
  by_cases hg : (lineIdx < 0 || (v.Lines.length : Int) ≤ lineIdx) = true
  · rw [if_pos hg]
    exact ⟨le_refl 0, le_max_left 0 _⟩
  · rw [if_neg hg]
    by_cases hq : v.Query = []
    · rw [if_pos hq]
      exact ⟨le_refl 0, le_max_left 0 _⟩
    · rw [if_neg hq]
      dsimp only
      by_cases hidx : strIndex
          (toLowerStr (v.Lines.getD lineIdx.toNat []))
          (toLowerStr v.Query) = -1
      · rw [if_pos hidx]
        exact ⟨le_refl 0, le_max_left 0 _⟩
      · rw [if_neg hidx]
        rcases strIndexGo_spec (toLowerStr v.Query)
            (toLowerStr (v.Lines.getD lineIdx.toNat [])) 0 with
          ⟨h1, _⟩ | ⟨k, h1, h2, _⟩
        · exact absurd (by unfold strIndex; rw [h1]) hidx
        · have hkl : k < (v.Lines.getD lineIdx.toNat []).length := by
            have := occursAt_lt_length _ _ _ h2 (by
              intro he
              exact hq (List.map_eq_nil_iff.mp he))
            simpa [toLowerStr] using this
          have hsi : strIndex (toLowerStr (v.Lines.getD lineIdx.toNat []))
              (toLowerStr v.Query) = (k : Int) := by
            unfold strIndex
            rw [h1]
            congr 1
            omega
          rw [hsi]
          have hlrc : lineRuneCount v lineIdx =
              ((v.Lines.getD lineIdx.toNat []).length : Int) := by
            apply lineRuneCount_in_range
            · simp only [Bool.or_eq_true, decide_eq_true_eq, not_or] at hg
              omega
            · simp only [Bool.or_eq_true, decide_eq_true_eq, not_or] at hg
              omega
          rw [hlrc, Int.toNat_natCast, List.length_take, le_max_iff]
          constructor
          · positivity
          · right
            have : min k (v.Lines.getD lineIdx.toNat []).length = k :=
              min_eq_left (Nat.le_of_lt hkl)
            rw [this]
            omega

/-- A clamped cursor update followed by a status reset satisfies the
invariant. -/
theorem inv_leaf (v w : Viewer) (hlines : w.Lines = v.Lines)
    (hmatches : w.Matches = v.Matches) (hv : Inv v) :
    Inv { clampCursor w with Status := ([] : Str) } :=
  inv_clamp_package v w hlines hmatches hv

/-- A clamped cursor update followed by a goal-column/status reset satisfies
the invariant. -/
theorem inv_leaf_goal (v w : Viewer) (hlines : w.Lines = v.Lines)
    (hmatches : w.Matches = v.Matches) (hv : Inv v) :
    Inv { clampCursor w with
          GoalCol := (clampCursor w).CursorCol
          Status := ([] : Str) } :=
  inv_clamp_package v w hlines hmatches hv

/-- Any `getD` lookup into the match list stays below the line count. -/
theorem matches_getD_lt (v : Viewer) (j : Nat) (hv : Inv v) :
    v.Matches.getD j 0 < v.Lines.length := by
  have hlen : 0 < v.Lines.length := by
    have h1 := hv.1.1
    have h2 := hv.1.2.1
    omega
  by_cases hin : j < v.Matches.length
  · rw [List.getD_eq_getElem?_getD, List.getElem?_eq_getElem hin]
    exact hv.2 _ (List.getElem_mem hin)
  · rw [List.getD_eq_getElem?_getD, List.getElem?_eq_none (by omega)]
    exact hlen

/-- Updating match index, cursor, column (to the query column) and status of
an invariant-satisfying state preserves the invariant when the new cursor is
in range. -/
theorem inv_search_update (v : Viewer) (mi cur col : Int) (hv : Inv v)
    (hcur0 : 0 ≤ cur) (hcurl : cur < (v.Lines.length : Int))
    (hcol : col = matchColForLine v cur) :
    Inv { v with
          MatchIndex := mi
          Cursor := cur
          CursorCol := col
          GoalCol := col
          Status := ([] : Str) } := by
  subst hcol
  refine ⟨⟨hcur0, hcurl, ?_, ?_⟩, hv.2⟩
  · exact (matchColForLine_bound v cur).1
  · show matchColForLine v cur ≤ max 0 (lineRuneCount v cur - 1)
    exact (matchColForLine_bound v cur).2

theorem moveCursor_inv (v : Viewer) (d : Int) (hv : Inv v) :
    Inv (moveCursor v d) := by
  have hc := (inv_clamp_package v { v with Cursor := v.Cursor + d } rfl rfl hv).1
  exact ⟨applyGoalCol_inv _ hc.1 hc.2.1, hv.2⟩

theorem moveCursorCol_inv (v : Viewer) (d : Int) (hv : Inv v) :
    Inv (moveCursorCol v d) :=
  inv_leaf_goal v { v with CursorCol := v.CursorCol + d } rfl rfl hv

theorem moveLineStart_inv (v : Viewer) (hv : Inv v) :
    Inv (moveLineStart v) :=
  inv_leaf_goal v { v with CursorCol := 0 } rfl rfl hv

theorem moveLineEnd_inv (v : Viewer) (hv : Inv v) :
    Inv (moveLineEnd v) :=
  inv_leaf_goal v
    { v with
      CursorCol :=
        if 0 < lineRuneCount v v.Cursor then lineRuneCount v v.Cursor - 1
        else lineRuneCount v v.Cursor } rfl rfl hv

theorem page_inv (v : Viewer) (h d : Int) (hv : Inv v) : Inv (page v h d) := by
  have hc := (inv_clamp_package v
    { v with Cursor := v.Cursor + d * (if h - 2 < 1 then 1 else h - 2) }
    rfl rfl hv).1
  exact ⟨applyGoalCol_inv _ hc.1 hc.2.1, hv.2⟩

theorem cursorTop_inv (v : Viewer) (hv : Inv v) : Inv (cursorTop v) := by
  refine ⟨⟨le_refl 0, ?_, le_refl 0, le_max_left 0 _⟩, hv.2⟩
  show (0 : Int) < (v.Lines.length : Int)
  have h1 := hv.1.1
  have h2 := hv.1.2.1
  omega

theorem cursorBottom_inv (v : Viewer) (hv : Inv v) : Inv (cursorBottom v) := by
  have hlen : v.Lines.length ≠ 0 := by
    have h1 := hv.1.1
    have h2 := hv.1.2.1
    omega
  unfold cursorBottom
  rw [if_neg hlen]
  refine ⟨⟨?_, ?_, le_refl 0, le_max_left 0 _⟩, hv.2⟩
  · show (0 : Int) ≤ (v.Lines.length : Int) - 1
    omega
  · show (v.Lines.length : Int) - 1 < (v.Lines.length : Int)
    omega

theorem toggleWrap_inv (v : Viewer) (hv : Inv v) : Inv (toggleWrap v) := hv

theorem clearSelection_inv (v : Viewer) (hv : Inv v) :
    Inv (clearSelection v) := hv

theorem toggleSelect_inv (v : Viewer) (mode : SelectionMode) (hv : Inv v) :
    Inv (toggleSelect v mode) := by
  unfold toggleSelect
  split_ifs with h h2 <;> first | exact hv | (cases mode <;> exact hv)

theorem mwfLoop_inv (v : Viewer) (hv : Inv v) :
    ∀ (fuel : Nat) (lineIdx : Nat) (col : Int),
      Inv (mwfLoop v lineIdx col fuel) := by
  intro fuel
  induction fuel with
  | zero => intro lineIdx col; exact hv
  | succ n ih =>
    intro lineIdx col
    rw [mwfLoop]
    dsimp only
    split_ifs <;>
      first
        | exact ih _ _
        | exact inv_leaf v _ rfl rfl hv

theorem moveWordForward_inv (v : Viewer) (hv : Inv v) :
    Inv (moveWordForward v) := by
  unfold moveWordForward
  split_ifs with h
  · exact hv
  · exact mwfLoop_inv v hv _ _ _

theorem mweLoop_inv (v : Viewer) (hv : Inv v) :
    ∀ (fuel : Nat) (lineIdx : Nat) (col : Int),
      Inv (mweLoop v lineIdx col fuel) := by
  intro fuel
  induction fuel with
  | zero => intro lineIdx col; exact hv
  | succ n ih =>
    intro lineIdx col
    rw [mweLoop]
    dsimp only
    split_ifs <;>
      first
        | exact ih _ _
        | exact inv_leaf v _ rfl rfl hv

theorem moveWordEnd_inv (v : Viewer) (hv : Inv v) :
    Inv (moveWordEnd v) := by
  unfold moveWordEnd
  split_ifs with h
  · exact hv
  · exact mweLoop_inv v hv _ _ _

theorem mwbInner_inv (v : Viewer) (hv : Inv v) :
    ∀ (fuel : Nat) (lineIdx col : Int),
      Inv (mwbInner v lineIdx col fuel) := by
  intro fuel
  induction fuel with
  | zero => intro lineIdx col; exact hv
  | succ n ih =>
    intro lineIdx col
    rw [mwbInner]
    dsimp only
    split_ifs <;>
      first
        | exact ih _ _
        | exact inv_leaf v _ rfl rfl hv

theorem mwbOuter_inv (v : Viewer) (hv : Inv v) :
    ∀ (fuel : Nat) (lineIdx col : Int),
      Inv (mwbOuter v lineIdx col fuel) := by
  intro fuel
  induction fuel with
  | zero => intro lineIdx col; exact hv
  | succ n ih =>
    intro lineIdx col
    rw [mwbOuter]
    dsimp only
    split_ifs <;>
      first
        | exact ih _ _
        | exact inv_leaf v _ rfl rfl hv
        | exact mwbInner_inv v hv _ _ _

theorem moveWordBackward_inv (v : Viewer) (hv : Inv v) :
    Inv (moveWordBackward v) := by
  unfold moveWordBackward
  split_ifs with h
  · exact hv
  · exact mwbOuter_inv v hv _ _ _

theorem setQuery_inv (v : Viewer) (query : Str) (dir : Int) (hv : Inv v) :
    Inv (setQuery v query dir) := by
  unfold setQuery
  dsimp only
  split_ifs with h1 h2
  · exact ⟨hv.1, fun m hm => absurd hm (List.not_mem_nil m)⟩
  · refine ⟨hv.1, fun m hm => ?_⟩
    rw [h2] at hm
    exact absurd hm (List.not_mem_nil m)
  · have hvm : Inv { v with
        Query := trimSpace query
        Matches := (List.range v.Lines.length).filterMap (fun i =>
          if containsStr (toLowerStr (v.Lines.getD i []))
            (toLowerStr (trimSpace query)) then some i else none)
        MatchIndex := 0 } := by
      refine ⟨hv.1, fun m hm => ?_⟩
      show m < v.Lines.length
      have hm2 : m ∈ (List.range v.Lines.length).filterMap (fun i =>
          if containsStr (toLowerStr (v.Lines.getD i []))
            (toLowerStr (trimSpace query)) then some i else none) := hm
      rw [filterMap_guard_eq_filter] at hm2
      exact List.mem_range.mp (List.mem_of_mem_filter hm2)
    refine inv_search_update _ _ _ _ hvm (Int.natCast_nonneg _) ?_ rfl
    show (_ : Int) < _
    exact_mod_cast matches_getD_lt _ _ hvm

theorem nextMatch_inv (v : Viewer) (dir : Int) (hv : Inv v) :
    Inv (nextMatch v dir) := by
  unfold nextMatch
  split_ifs with h
  · exact hv
  · dsimp only
    refine inv_search_update _ _ _ _ hv (Int.natCast_nonneg _) ?_ rfl
    exact_mod_cast matches_getD_lt _ _ hv

theorem lineRuneCount_append (v : Viewer) (batch : List Str) (idx : Int)
    (h1 : 0 ≤ idx) (h2 : idx < (v.Lines.length : Int)) :
    lineRuneCount { v with Lines := v.Lines ++ batch } idx =
      lineRuneCount v idx := by
  rw [lineRuneCount_in_range _ _ h1 h2, lineRuneCount_in_range]
  · show (((v.Lines ++ batch).getD idx.toNat []).length : Int) = _
    rw [List.getD_eq_getElem?_getD, List.getElem?_append_left (by omega),
      ← List.getD_eq_getElem?_getD]
  · exact h1
  · show idx < ((v.Lines ++ batch).length : Int)
    rw [List.length_append]
    push_cast
    omega

theorem appendLines_inv (v : Viewer) (batch : List Str) (hv : Inv v) :
    Inv (appendLines v batch) := by
  unfold appendLines
  dsimp only
  split_ifs with h1 h2
  · exact hv
  · refine ⟨⟨?_, ?_, le_refl 0, le_max_left 0 _⟩, fun m hm => ?_⟩
    · show (0 : Int) ≤ ((v.Lines ++ batch).length : Int) - 1
      rw [List.length_append]
      have hl1 := hv.1.1
      have hl2 := hv.1.2.1
      push_cast
      omega
    · show ((v.Lines ++ batch).length : Int) - 1 < ((v.Lines ++ batch).length : Int)
      omega
    · show m < (v.Lines ++ batch).length
      rw [List.length_append]
      have := hv.2 m hm
      omega
  · refine ⟨⟨hv.1.1, ?_, hv.1.2.2.1, ?_⟩, fun m hm => ?_⟩
    · show v.Cursor < ((v.Lines ++ batch).length : Int)
      rw [List.length_append]
      have := hv.1.2.1
      push_cast
      omega
    · show v.CursorCol ≤ max 0
        (lineRuneCount { v with Lines := v.Lines ++ batch } v.Cursor - 1)
      rw [lineRuneCount_append v batch v.Cursor hv.1.1 hv.1.2.1]
      exact hv.1.2.2.2
    · show m < (v.Lines ++ batch).length
      rw [List.length_append]
      have := hv.2 m hm
      omega

/-- One operation preserves the invariant. -/
theorem step_inv (v : Viewer) (op : Op) (hv : Inv v) : Inv (step v op) := by
  cases op with
  | moveCursor d => exact moveCursor_inv v d hv
  | moveCursorCol d => exact moveCursorCol_inv v d hv
  | moveLineStart => exact moveLineStart_inv v hv
  | moveLineEnd => exact moveLineEnd_inv v hv
  | moveWordForward => exact moveWordForward_inv v hv
  | moveWordBackward => exact moveWordBackward_inv v hv
  | moveWordEnd => exact moveWordEnd_inv v hv
  | toggleWrap => exact toggleWrap_inv v hv
  | cursorTop => exact cursorTop_inv v hv
  | cursorBottom => exact cursorBottom_inv v hv
  | page h d => exact page_inv v h d hv
  | setQuery q d => exact setQuery_inv v q d hv
  | nextMatch d => exact nextMatch_inv v d hv
  | toggleSelect m => exact toggleSelect_inv v m hv
  | clearSelection => exact clearSelection_inv v hv
  | appendLines b => exact appendLines_inv v b hv

/-- Any operation sequence preserves the invariant. -/
theorem applyOps_inv (ops : List Op) : ∀ (v : Viewer), Inv v →
    Inv (applyOps v ops) := by
  induction ops with
  | nil => intro v hv; exact hv
  | cons op t ih =>
    intro v hv
    exact ih (step v op) (step_inv v op hv)

/-- The initial viewer state satisfies the invariant when the line store is
non-empty. -/
theorem initViewer_inv (lines : List Str) (rules : List Rule)
    (plain statusAtTop lineNumbers follow : Bool) (hne : lines ≠ []) :
    Inv (initViewer lines rules plain statusAtTop lineNumbers follow) := by
  refine ⟨⟨le_refl 0, ?_, le_refl 0, le_max_left 0 _⟩,
    fun m hm => absurd hm (List.not_mem_nil m)⟩
  show (0 : Int) < (lines.length : Int)
  have : lines.length ≠ 0 := fun h => hne (List.length_eq_zero.mp h)
  omega

/-- C1: for every viewer state reachable from an initial state built from a
non-empty line batch, after any sequence of viewer operations (cursor motion,
word motion, search, match cycling, selection, wrap toggle, append), the
cursor line index satisfies `0 ≤ Cursor < lineCount` and the cursor column
satisfies `0 ≤ CursorCol ≤ max 0 (runeLen(currentLine) - 1)`. -/
theorem cursor_invariant_reachable (lines : List Str) (rules : List Rule)
    (plain statusAtTop lineNumbers follow : Bool) (hne : lines ≠ [])
    (ops : List Op) :
    0 ≤ (applyOps (initViewer lines rules plain statusAtTop lineNumbers follow)
        ops).Cursor ∧
    (applyOps (initViewer lines rules plain statusAtTop lineNumbers follow)
        ops).Cursor <
      (((applyOps (initViewer lines rules plain statusAtTop lineNumbers follow)
        ops).Lines.length : Int)) ∧
    0 ≤ (applyOps (initViewer lines rules plain statusAtTop lineNumbers follow)
        ops).CursorCol ∧
    (applyOps (initViewer lines rules plain statusAtTop lineNumbers follow)
        ops).CursorCol ≤
      max 0 (lineRuneCount
        (applyOps (initViewer lines rules plain statusAtTop lineNumbers follow)
          ops)
        (applyOps (initViewer lines rules plain statusAtTop lineNumbers follow)
          ops).Cursor - 1) :=
  (applyOps_inv ops _
    (initViewer_inv lines rules plain statusAtTop lineNumbers follow hne)).1

/-- Witness for C1 at a concrete non-empty line store and operation list
exercising cursor motion, word motion, search and append. -/
theorem cursor_invariant_reachable_witness :
    ([str "alpha beta", str "", str "x"] : List Str) ≠ [] ∧
    (0 ≤ (applyOps (initViewer [str "alpha beta", str "", str "x"] [] false
        false false false)
        [Op.moveCursor 5, Op.moveWordForward, Op.setQuery (str "x") 1,
          Op.nextMatch 1, Op.appendLines [str "tail"], Op.cursorBottom,
          Op.moveLineEnd]).Cursor ∧
      (applyOps (initViewer [str "alpha beta", str "", str "x"] [] false
        false false false)
        [Op.moveCursor 5, Op.moveWordForward, Op.setQuery (str "x") 1,
          Op.nextMatch 1, Op.appendLines [str "tail"], Op.cursorBottom,
          Op.moveLineEnd]).Cursor <
        (((applyOps (initViewer [str "alpha beta", str "", str "x"] [] false
          false false false)
          [Op.moveCursor 5, Op.moveWordForward, Op.setQuery (str "x") 1,
            Op.nextMatch 1, Op.appendLines [str "tail"], Op.cursorBottom,
            Op.moveLineEnd]).Lines.length : Int)) ∧
      0 ≤ (applyOps (initViewer [str "alpha beta", str "", str "x"] [] false
        false false false)
        [Op.moveCursor 5, Op.moveWordForward, Op.setQuery (str "x") 1,
          Op.nextMatch 1, Op.appendLines [str "tail"], Op.cursorBottom,
          Op.moveLineEnd]).CursorCol ∧
      (applyOps (initViewer [str "alpha beta", str "", str "x"] [] false
        false false false)
        [Op.moveCursor 5, Op.moveWordForward, Op.setQuery (str "x") 1,
          Op.nextMatch 1, Op.appendLines [str "tail"], Op.cursorBottom,
          Op.moveLineEnd]).CursorCol ≤
        max 0 (lineRuneCount
          (applyOps (initViewer [str "alpha beta", str "", str "x"] [] false
            false false false)
            [Op.moveCursor 5, Op.moveWordForward, Op.setQuery (str "x") 1,
              Op.nextMatch 1, Op.appendLines [str "tail"], Op.cursorBottom,
              Op.moveLineEnd])
          (applyOps (initViewer [str "alpha beta", str "", str "x"] [] false
            false false false)
            [Op.moveCursor 5, Op.moveWordForward, Op.setQuery (str "x") 1,
              Op.nextMatch 1, Op.appendLines [str "tail"], Op.cursorBottom,
              Op.moveLineEnd]).Cursor - 1)) :=
  ⟨by decide,
    cursor_invariant_reachable [str "alpha beta", str "", str "x"] [] false
      false false false (by decide)
      [Op.moveCursor 5, Op.moveWordForward, Op.setQuery (str "x") 1,
        Op.nextMatch 1, Op.appendLines [str "tail"], Op.cursorBottom,
        Op.moveLineEnd]⟩

end Tilo
